import Mathlib

/-!
Verification of a small Redis-compatible server (RESP2 codec, command parser,
key/value store with background expiration) against its natural-language
specification.  The Rust source is embedded shallowly: bytes are `Nat`,
`Instant` is `Nat`, `Bytes`/`String` payloads are `List Nat`, the concurrent
maps are association lists, and the expiry `BinaryHeap<Reverse<(Instant, Key)>>`
is modelled as an ascending sorted list (push = ordered insert, pop = head).
Fallible Rust code returns `Option`/`Except`; a slice expression that would
panic is modelled as `Option.none` at top level.
-/

namespace Redis

/-! Monotonic instants (`std::time::Instant`) are modelled as plain `Nat`. -/
/-- Byte strings (bytes::Bytes / String payloads), modelled as lists of bytes. -/
abbrev ByteStr := List Nat

/-- Map keys (server/types.rs: `type RedisKey = Bytes`). -/
abbrev RedisKey := ByteStr

/-! ### server/types.rs : `Value` and the string-namespace store -/

/-- Embedding of `struct Value { value: Bytes, expiration: Option<Instant> }`
from server/types.rs. -/
structure Value where
  value : ByteStr
  expiration : Option Nat
  deriving Repr, DecidableEq

/-- Embedding of `Value::expired(&self, current: Instant) -> bool`
(server/types.rs lines 21..34): some expiration with `current >= expiration`
means expired; no expiration means never expired. -/
def Value.expired (v : Value) (current : Nat) : Bool :=
  match v.expiration with
  | some expiration => decide (current ≥ expiration)
  | none => false

/-- Embedding of `Value::get_value` (a full slice of the stored bytes). -/
def Value.get_value (v : Value) : ByteStr := v.value

/-- The string-namespace map `DashMap<RedisKey, Value>`, modelled as an
association list with at most one binding per key (lookup finds the first). -/
abbrev Db := List (RedisKey × Value)

/-- Lookup in the modelled `DashMap` (`map.get(key)`). -/
def dbGet (db : Db) (k : RedisKey) : Option Value :=
  (db.find? (fun e => e.1 = k)).map (·.2)

/-- Embedding of `DashMap::remove` restricted to its effect on the map:
every binding of the key is dropped. -/
def dbRemove (db : Db) (k : RedisKey) : Db :=
  db.filter (fun e => ¬ e.1 = k)

/-- Embedding of `DashMap::insert` (overwrite any old binding). -/
def dbInsert (db : Db) (k : RedisKey) (v : Value) : Db :=
  (k, v) :: dbRemove db k

/-- Embedding of `Database::get_key` (server/types.rs lines 65..73):
`self.kv.get(key).and_then(|v| if !v.expired(now) { Some(v.get_value()) } else { None })`.
`Instant::now()` is passed explicitly. -/
def Database.get_key (db : Db) (key : RedisKey) (now : Nat) : Option ByteStr :=
  (dbGet db key).bind (fun v => if ¬ v.expired now then some v.get_value else none)

/-! ### server.rs : the expiry scheduler `Redis::key_expirer` -/

/-- Expiry events `(Instant, RedisKey)` (server/types.rs `type ExpiryEvent`). -/
abbrev ExpiryEvent := Nat × RedisKey

/-- Lexicographic byte-string comparison, the order `Ord for Bytes` gives the
`(Instant, RedisKey)` tuples inside the heap's `Reverse` wrapper. -/
def bytesLe : ByteStr → ByteStr → Bool
  | [], _ => true
  | _ :: _, [] => false
  | a :: as, b :: bs => if a < b then true else if b < a then false else bytesLe as bs

/-- Order on heap entries: `(Instant, RedisKey)` compared lexicographically. -/
def entryLe (a b : ExpiryEvent) : Bool :=
  if a.1 < b.1 then true else if b.1 < a.1 then false else bytesLe a.2 b.2

/-- The scheduler's `BinaryHeap<Reverse<(Instant, RedisKey)>>` modelled as a
list kept sorted ascending by `entryLe`; `peek`/`pop` look at the head. -/
abbrev Heap := List ExpiryEvent

/-- Ordered insertion, the model of `BinaryHeap::push`. -/
def heapPush (e : ExpiryEvent) : Heap → Heap
  | [] => [e]
  | x :: xs => if entryLe e x then e :: x :: xs else x :: heapPush e xs

/-- Embedding of the event branch of `Redis::key_expirer` (server.rs lines
72..83): `expiry_queue.retain(|Reverse(evt)| evt.1 != event.1)` followed by
`expiry_queue.push(Reverse(event))`. -/
def onEvent (event : ExpiryEvent) (heap : Heap) : Heap :=
  heapPush event (heap.filter (fun evt => ¬ evt.2 = event.2))

/-- Embedding of the timer branch of `Redis::key_expirer` (server.rs lines
92..104): while the heap's earliest entry has deadline ≤ now, pop it and call
`db.remove(&key)` — unconditionally, with no check against the deadline
currently stored for the key. -/
def expireLoop : Heap → Db → Nat → Heap × Db
  | [], db, _ => ([], db)
  | e :: rest, db, now =>
      if e.1 > now then (e :: rest, db)
      else expireLoop rest (dbRemove db e.2) now

/-- One scheduler action: either an expiry event arrives on the channel, or
the timer fires at some observed `now`. -/
inductive SchedAction where
  | event (e : ExpiryEvent)
  | timer (now : Nat)
  deriving Repr, DecidableEq

/-- One step of the scheduler's select loop, acting on heap and store. -/
def schedStep (s : Heap × Db) (a : SchedAction) : Heap × Db :=
  match a with
  | .event e => (onEvent e s.1, s.2)
  | .timer now => expireLoop s.1 s.2 now

/-- Heap states reachable by running the scheduler from an empty heap over a
sequence of actions (the store may start arbitrary: it is shared state). -/
def schedRun (db0 : Db) (acts : List SchedAction) : Heap × Db :=
  acts.foldl schedStep ([], db0)

/-- Number of heap entries carrying the given key. -/
def keyCount (k : RedisKey) (h : Heap) : Nat :=
  (h.filter (fun e => e.2 = k)).length

/-- Deadline of the most recently received expiry event for a key within an
action sequence, if any. -/
def lastEventDeadline (k : RedisKey) : List SchedAction → Option Nat
  | [] => none
  | a :: rest =>
      match lastEventDeadline k rest with
      | some t => some t
      | none =>
          match a with
          | .event (t, k') => if k' = k then some t else none
          | .timer _ => none

/-! ### Shared numeric / text utilities used by the Rust standard library calls -/

/-- Value of an ASCII decimal digit byte, if it is one. -/
def decDigit (b : Nat) : Option Nat :=
  if 48 ≤ b ∧ b ≤ 57 then some (b - 48) else none

/-- Accumulate the decimal value of a digit-byte run; fails on a non-digit. -/
def digitsVal : List Nat → Nat → Option Nat
  | [], acc => some acc
  | b :: rest, acc =>
      match decDigit b with
      | some d => digitsVal rest (acc * 10 + d)
      | none => none

/-- Decimal value of a non-empty all-digit byte string. -/
def parseDigits : List Nat → Option Nat
  | [] => none
  | l => digitsVal l 0

/-- Embedding of Rust's `u64::from_str`: an optional leading plus sign, then
one or more decimal digits, value below 2^64 (overflow is a parse error). -/
def parseU64 (s : List Nat) : Option Nat :=
  let body :=
    match s with
    | 43 :: rest => rest
    | _ => s
  (parseDigits body).bind (fun n => if n < 2 ^ 64 then some n else none)

/-- Embedding of Rust's `i64::from_str`: an optional sign, then one or more
decimal digits, value within the i64 range (overflow is a parse error). -/
def parseI64 (s : List Nat) : Option Int :=
  match s with
  | 43 :: rest => (parseDigits rest).bind (fun n => if n < 2 ^ 63 then some (n : Int) else none)
  | 45 :: rest => (parseDigits rest).bind (fun n => if n ≤ 2 ^ 63 then some (-(n : Int)) else none)
  | _ => (parseDigits s).bind (fun n => if n < 2 ^ 63 then some (n : Int) else none)

/-- Test for a UTF-8 continuation byte. -/
def isUtf8Cont (b : Nat) : Bool := decide (0x80 ≤ b ∧ b ≤ 0xBF)

mutual

/-- Embedding of `str::from_utf8`'s validity check: the standard UTF-8
byte-level automaton, rejecting overlong forms and surrogates.  ASCII bytes
are consumed directly; a multi-byte lead defers to `utf8ValidMulti`. -/
def utf8Valid : List Nat → Bool
  | [] => true
  | b :: rest => if b ≤ 0x7F then utf8Valid rest else utf8ValidMulti b rest

/-- Continuation handling of the UTF-8 automaton: the lead byte classifies
how many continuation bytes follow and their admissible ranges. -/
def utf8ValidMulti : Nat → List Nat → Bool
  | _, [] => false
  | b, c1 :: tail =>
      if 0xC2 ≤ b ∧ b ≤ 0xDF then isUtf8Cont c1 && utf8Valid tail
      else if b = 0xE0 then
        match tail with
        | c2 :: tail2 => decide (0xA0 ≤ c1 ∧ c1 ≤ 0xBF) && isUtf8Cont c2 && utf8Valid tail2
        | _ => false
      else if 0xE1 ≤ b ∧ b ≤ 0xEC then
        match tail with
        | c2 :: tail2 => isUtf8Cont c1 && isUtf8Cont c2 && utf8Valid tail2
        | _ => false
      else if b = 0xED then
        match tail with
        | c2 :: tail2 => decide (0x80 ≤ c1 ∧ c1 ≤ 0x9F) && isUtf8Cont c2 && utf8Valid tail2
        | _ => false
      else if 0xEE ≤ b ∧ b ≤ 0xEF then
        match tail with
        | c2 :: tail2 => isUtf8Cont c1 && isUtf8Cont c2 && utf8Valid tail2
        | _ => false
      else if b = 0xF0 then
        match tail with
        | c2 :: c3 :: tail3 =>
            decide (0x90 ≤ c1 ∧ c1 ≤ 0xBF) && isUtf8Cont c2 && isUtf8Cont c3 && utf8Valid tail3
        | _ => false
      else if 0xF1 ≤ b ∧ b ≤ 0xF3 then
        match tail with
        | c2 :: c3 :: tail3 =>
            isUtf8Cont c1 && isUtf8Cont c2 && isUtf8Cont c3 && utf8Valid tail3
        | _ => false
      else if b = 0xF4 then
        match tail with
        | c2 :: c3 :: tail3 =>
            decide (0x80 ≤ c1 ∧ c1 ≤ 0x8F) && isUtf8Cont c2 && isUtf8Cont c3 && utf8Valid tail3
        | _ => false
      else false

end

/-- Upper-casing of one byte, the ASCII case of Rust's string upper-casing. -/
def asciiUpperByte (b : Nat) : Nat :=
  if 97 ≤ b ∧ b ≤ 122 then b - 32 else b

/-- Embedding of `str::to_uppercase` restricted to the ASCII range: non-ASCII
code points are kept unchanged.  (Unicode upper-casing differs off the ASCII
range; no theorem in this file exercises non-ASCII command or option names.) -/
def toUppercase (s : List Nat) : List Nat := s.map asciiUpperByte

/-! ### resp.rs : the RESP value type and its conversions -/

/-- Embedding of `enum RedisValue` (resp.rs lines 8..17). -/
inductive RedisValue where
  | SimpleString (s : ByteStr)
  | SimpleError (s : ByteStr)
  | Integer (i : Int)
  | NullBulkString
  | BulkString (s : ByteStr)
  | NullArray
  | Array (vs : List RedisValue)
  deriving Repr

/-- Embedding of `TryFrom<&RedisValue> for String` (resp.rs lines 30..39):
a bulk string is UTF-8-checked and upper-cased; anything else is an error. -/
def tryIntoString (v : RedisValue) : Except Unit ByteStr :=
  match v with
  | .BulkString s => if utf8Valid s then .ok (toUppercase s) else .error ()
  | _ => .error ()

/-- Embedding of `TryFrom<&RedisValue> for Bytes` (resp.rs lines 41..50). -/
def tryIntoBytes (v : RedisValue) : Except Unit ByteStr :=
  match v with
  | .BulkString s => .ok s
  | _ => .error ()

/-! ### command.rs : the typed command parser -/

/-- Embedding of `std::time::Duration` (64-bit seconds plus nanoseconds). -/
structure Duration where
  secs : Nat
  nanos : Nat
  deriving Repr, DecidableEq

/-- Embedding of `Duration::from_millis`. -/
def Duration.from_millis (n : Nat) : Duration := ⟨n / 1000, n % 1000 * 1000000⟩

/-- Embedding of `Duration::from_secs`. -/
def Duration.from_secs (n : Nat) : Duration := ⟨n, 0⟩

/-- Embedding of `enum RedisCommand` (command.rs lines 9..22). -/
inductive RedisCommand where
  | Ping
  | Echo (msg : ByteStr)
  | Get (key : ByteStr)
  | Set (key : ByteStr) (value : ByteStr) (expiration : Option Duration)
  | RPush (list_name : ByteStr) (elements : List ByteStr)
  deriving Repr, DecidableEq

/-- Embedding of `process_time` (command.rs lines 116..123): convert the value
to a string, parse it as u64, apply the duration constructor. -/
def process_time (dur : RedisValue) (f : Nat → Duration) : Except Unit Duration := do
  let dur_str ← tryIntoString dur
  match parseU64 dur_str with
  | some n => .ok (f n)
  | none => .error ()

/-- Embedding of `RedisCommand::expect_bulk_string` (command.rs lines
103..113): checked lookup which succeeds only on a bulk string. -/
def RedisCommand.expect_bulk_string (values : List RedisValue) (index : Nat) :
    Except Unit ByteStr :=
  match values.get? index with
  | some (.BulkString b) => .ok b
  | _ => .error ()

/-- Embedding of the SET option loop (command.rs lines 59..81): consume the
remaining tokens pairwise, overwriting `expiration` on each PX/EX pair,
rejecting unknown keywords and missing or unparsable durations. -/
def setOptLoop : List RedisValue → Option Duration → Except Unit (Option Duration)
  | [], expiration => .ok expiration
  | v :: rest, expiration => do
      let arg ← tryIntoString v
      if arg = [80, 88] then
        match rest with
        | [] => .error ()
        | dur :: tail => do
            let d ← process_time dur Duration.from_millis
            setOptLoop tail (some d)
      else if arg = [69, 88] then
        match rest with
        | [] => .error ()
        | dur :: tail => do
            let d ← process_time dur Duration.from_secs
            setOptLoop tail (some d)
      else
        let _ := expiration
        .error ()

/-- Embedding of `.iter().map(|rv| rv.try_into()).collect::<Result<Vec<_>,_>>()`
over RESP values (command.rs lines 92..93). -/
def collectBytes : List RedisValue → Except Unit (List ByteStr)
  | [] => .ok []
  | v :: rest => do
      let b ← tryIntoBytes v
      let bs ← collectBytes rest
      .ok (b :: bs)

/-- Embedding of a Rust slice expression `&values[index..]`, which panics when
`index` exceeds the length; the panic is the `none` case. -/
def sliceFrom (values : List RedisValue) (index : Nat) : Option (List RedisValue) :=
  if index ≤ values.length then some (values.drop index) else none

/-- Embedding of the command-name extraction in `RedisCommand::parse`
(command.rs lines 32..42): the first element must be a bulk string, which is
interpreted as UTF-8 and upper-cased. -/
def commandName (values : List RedisValue) : Option ByteStr :=
  values.head?.bind (fun v =>
    match v with
    | .BulkString s => if utf8Valid s then some (toUppercase s) else none
    | _ => none)

/-- Embedding of `RedisCommand::parse` (command.rs lines 25..101).  The outer
`Option` tracks panic-freedom: `none` would mean a slice expression panicked;
the inner `Except` is the function's own `Result`. -/
def RedisCommand.parse (msg : RedisValue) : Option (Except Unit RedisCommand) :=
  match msg with
  | .Array values =>
      match commandName values with
      | none => some (.error ())
      | some cmd =>
          if cmd = [80, 73, 78, 71] then some (.ok .Ping)
          else if cmd = [69, 67, 72, 79] then
            some ((expect_bulk_string values 1).map RedisCommand.Echo)
          else if cmd = [71, 69, 84] then
            some ((expect_bulk_string values 1).map RedisCommand.Get)
          else if cmd = [83, 69, 84] then
            match expect_bulk_string values 1 with
            | .error e => some (.error e)
            | .ok key =>
                match expect_bulk_string values 2 with
                | .error e => some (.error e)
                | .ok value =>
                    match sliceFrom values 3 with
                    | none => none
                    | some rest =>
                        some ((setOptLoop rest none).map
                          (fun expiration => RedisCommand.Set key value expiration))
          else if cmd = [82, 80, 85, 83, 72] then
            match expect_bulk_string values 1 with
            | .error e => some (.error e)
            | .ok list_name =>
                match sliceFrom values 2 with
                | none => none
                | some rest =>
                    some ((collectBytes rest).map
                      (fun elements => RedisCommand.RPush list_name elements))
          else some (.error ())
  | _ => some (.error ())

/-! ### resp/parse.rs : the streaming RESP decoder -/

/-- Embedding of `enum RespParseError` (parse.rs lines 7..16).  The `IOError`
variant is omitted: it only wraps transport failures, which the pure parsing
functions never produce. -/
inductive RespParseError where
  | ParseUtf8Error
  | ParseIntegerError
  | InvalidFirstByte
  | InvalidBulkStringLength (l : Int)
  | ExceededMaxLength
  | InvalidArrayLength (l : Int)
  deriving Repr, DecidableEq

/-- Embedding of `struct BufRange(usize, usize)` (parse.rs line 37). -/
structure BufRange where
  start : Nat
  stop : Nat
  deriving Repr, DecidableEq

/-- Embedding of `enum RedisIntermediate` (parse.rs lines 39..48). -/
inductive RedisIntermediate where
  | SimpleString (br : BufRange)
  | SimpleError (br : BufRange)
  | Integer (i : Int)
  | NullBulkString
  | BulkString (br : BufRange)
  | NullArray
  | Array (ints : List RedisIntermediate)
  deriving Repr

/-- Embedding of `Bytes::slice(a..b)` on a buffer. -/
def slice (buffer : ByteStr) (a b : Nat) : ByteStr := (buffer.take b).drop a

mutual

/-- Embedding of `RedisIntermediate::generate_value` (parse.rs lines 51..66):
resolve the buffer ranges of an intermediate into actual byte payloads. -/
def generate_value : RedisIntermediate → ByteStr → RedisValue
  | .SimpleString br, buffer => .SimpleString (slice buffer br.start br.stop)
  | .SimpleError br, buffer => .SimpleError (slice buffer br.start br.stop)
  | .Integer i, _ => .Integer i
  | .NullBulkString, _ => .NullBulkString
  | .BulkString br, buffer => .BulkString (slice buffer br.start br.stop)
  | .NullArray, _ => .NullArray
  | .Array ints, buffer => .Array (generate_values ints buffer)

/-- Elementwise `generate_value` over the children of an array intermediate. -/
def generate_values : List RedisIntermediate → ByteStr → List RedisValue
  | [], _ => []
  | i :: rest, buffer => generate_value i buffer :: generate_values rest buffer

end

/-- Result type of the parsing functions (parse.rs line 69): a fatal framing
error, "need more input" (`none`), or a consumed count plus an intermediate. -/
abbrev ParseResult := Except RespParseError (Option (Nat × RedisIntermediate))

/-- Embedding of `parse_word` (parse.rs lines 71..82): find the first CR at or
after `pos`, and require the byte after it to be LF.  The source compares
`ret + 1` (an offset relative to `pos`) against the absolute buffer length, so
when the CR is the final byte the subsequent index `input[pos + ret + 1]` is
out of bounds; that read is modelled with default 0 (which is ≠ LF). -/
def parse_word (input : ByteStr) (pos : Nat) : Option (Nat × BufRange) :=
  if input.length ≤ pos then none
  else
    match (input.drop pos).findIdx? (fun b => b = 13) with
    | none => none
    | some ret =>
        if ret + 1 < input.length ∧ (input.getD (pos + ret + 1) 0) = 10 then
          some (pos + ret + 2, ⟨pos, pos + ret⟩)
        else none

/-- Embedding of `int` (parse.rs lines 92..100): read one CRLF-terminated word
and interpret it as UTF-8 text parsed as a signed 64-bit integer. -/
def int (input : ByteStr) (pos : Nat) : Except RespParseError (Option (Nat × Int)) :=
  match parse_word input pos with
  | some (p, int_range) =>
      let bytes := slice input int_range.start int_range.stop
      if utf8Valid bytes then
        match parseI64 bytes with
        | some i => .ok (some (p, i))
        | none => .error .ParseIntegerError
      else .error .ParseUtf8Error
  | none => .ok none

/-- Embedding of `parse_simple_string` (parse.rs lines 84..86). -/
def parse_simple_string (input : ByteStr) (pos : Nat) : ParseResult :=
  .ok ((parse_word input pos).map (fun pr => (pr.1, RedisIntermediate.SimpleString pr.2)))

/-- Embedding of `parse_simple_error` (parse.rs lines 88..90). -/
def parse_simple_error (input : ByteStr) (pos : Nat) : ParseResult :=
  .ok ((parse_word input pos).map (fun pr => (pr.1, RedisIntermediate.SimpleError pr.2)))

/-- Embedding of `parse_integer` (parse.rs lines 102..104). -/
def parse_integer (input : ByteStr) (pos : Nat) : ParseResult :=
  match int input pos with
  | .error e => .error e
  | .ok none => .ok none
  | .ok (some (p, i)) => .ok (some (p, RedisIntermediate.Integer i))

/-- Embedding of `parse_bulk_string` (parse.rs lines 106..126): length −1 is a
null bulk string; a non-negative length beyond `u32::MAX` is rejected; the
frame is complete exactly when `LEN + 2` bytes follow the header (the two
trailing bytes are consumed without being inspected); a length below −1 is
`InvalidBulkStringLength`. -/
def parse_bulk_string (input : ByteStr) (pos : Nat) : ParseResult :=
  match int input pos with
  | .error e => .error e
  | .ok none => .ok none
  | .ok (some (p, length)) =>
      if length = -1 then .ok (some (p, RedisIntermediate.NullBulkString))
      else if length ≥ 0 then
        if length > (4294967295 : Int) then .error .ExceededMaxLength
        else
          let stop := p + length.toNat
          if input.length < stop + 2 then .ok none
          else .ok (some (stop + 2, RedisIntermediate.BulkString ⟨p, stop⟩))
      else .error (.InvalidBulkStringLength length)

/-- Embedding of the `for _ in 0..length` loop of `parse_array` (parse.rs
lines 136..144), accumulating the decoded children in order; the child
decoder is passed explicitly so that the recursion stays structural. -/
def parseChildren (child : ByteStr → Nat → ParseResult) (input : ByteStr) :
    Nat → Nat → List RedisIntermediate → ParseResult
  | 0, p, values => .ok (some (p, RedisIntermediate.Array values))
  | n + 1, p, values =>
      match child input p with
      | .error e => .error e
      | .ok none => .ok none
      | .ok (some (p', v)) => parseChildren child input n p' (values ++ [v])

/-- Embedding of `parse_array` (parse.rs lines 128..150): length −1 is a null
array; a non-negative length beyond `u32::MAX` is rejected; otherwise decode
that many child frames with the given child decoder; a length below −1 is
`InvalidArrayLength`. -/
def parse_array (child : ByteStr → Nat → ParseResult) (input : ByteStr) (pos : Nat) :
    ParseResult :=
  match int input pos with
  | .error e => .error e
  | .ok none => .ok none
  | .ok (some (p, length)) =>
      if length = -1 then .ok (some (p, RedisIntermediate.NullArray))
      else if length ≥ 0 then
        if length > (4294967295 : Int) then .error .ExceededMaxLength
        else parseChildren child input length.toNat p []
      else .error (.InvalidArrayLength length)

/-- Embedding of `parse` (parse.rs lines 152..169), made total with a fuel
argument bounding the array-nesting depth.  With the fuel used by `parse`
below (buffer length + 1), the zero-fuel case is only ever reached at a
position past the end of the buffer, where the source also reports "need more
input": each nesting level strictly advances the position. -/
def parseF : Nat → ByteStr → Nat → ParseResult
  | 0, _, _ => .ok none
  | fuel + 1, input, pos =>
      if input.isEmpty then .ok none
      else if input.length ≤ pos then .ok none
      else
        match input.getD pos 0 with
        | 43 => parse_simple_string input (pos + 1)
        | 45 => parse_simple_error input (pos + 1)
        | 58 => parse_integer input (pos + 1)
        | 36 => parse_bulk_string input (pos + 1)
        | 42 => parse_array (parseF fuel) input (pos + 1)
        | _ => .error .InvalidFirstByte

/-- Top-level entry corresponding to `parse` (parse.rs lines 152..169); the
fuel `input.length + 1` can never run out before the position leaves the
buffer. -/
def parse (input : ByteStr) (pos : Nat) : ParseResult :=
  parseF (input.length + 1) input pos

/-- Embedding of `RespFrame::decode` (codec.rs lines 13..25): parse one frame
at position 0, split off the consumed prefix and resolve the intermediate
against it.  The consumed byte count is returned alongside the value. -/
def RespFrame.decode (src : ByteStr) : Except RespParseError (Option (RedisValue × Nat)) :=
  if src.isEmpty then .ok none
  else
    match parse src 0 with
    | .error e => .error e
    | .ok none => .ok none
    | .ok (some (pos, intermediate)) =>
        .ok (some (generate_value intermediate (src.take pos), pos))

/-! ### resp/codec.rs : the RESP encoder -/

/-- Decimal digit bytes of a positive natural number, most significant first,
with an explicit fuel bound on the number of divisions. -/
def natDigitsAux : Nat → Nat → List Nat
  | 0, _ => []
  | fuel + 1, n => if n = 0 then [] else natDigitsAux fuel (n / 10) ++ [n % 10 + 48]

/-- Decimal digit bytes of a natural number, most significant first
(`usize::to_string`). -/
def natDigits (n : Nat) : List Nat :=
  if n = 0 then [48] else natDigitsAux n n

/-- Embedding of `i64::to_string`: a minus sign before the digits of the
absolute value for negatives. -/
def intToBytes (i : Int) : List Nat :=
  if i < 0 then 45 :: natDigits i.natAbs else natDigits i.toNat

mutual

/-- Embedding of `RespFrame::encode_value` (codec.rs lines 31..88). -/
def encode_value : RedisValue → List Nat
  | .NullArray => [42, 45, 49, 13, 10]
  | .NullBulkString => [36, 45, 49, 13, 10]
  | .SimpleString s => 43 :: (s ++ [13, 10])
  | .SimpleError e => 45 :: (e ++ [13, 10])
  | .Integer i => 58 :: (intToBytes i ++ [13, 10])
  | .BulkString s => 36 :: (natDigits s.length ++ [13, 10] ++ s ++ [13, 10])
  | .Array vs => 42 :: (natDigits vs.length ++ [13, 10] ++ encode_list vs)

/-- Sequential encoding of array elements (the `for element in v` loop). -/
def encode_list : List RedisValue → List Nat
  | [] => []
  | v :: rest => encode_value v ++ encode_list rest

end

mutual

/-- Well-formedness of a RESP value with respect to the Rust representation:
simple payloads contain no CR byte (the wire format cannot carry one),
integers fit in i64 (as the Rust type forces), and bulk payloads and arrays
stay within the decoder's `u32::MAX` length bound. -/
def wfValue : RedisValue → Bool
  | .SimpleString s => decide (¬ 13 ∈ s)
  | .SimpleError s => decide (¬ 13 ∈ s)
  | .Integer i => decide (-(2 ^ 63) ≤ i ∧ i < 2 ^ 63)
  | .NullBulkString => true
  | .BulkString s => decide (s.length ≤ 4294967295)
  | .NullArray => true
  | .Array vs => decide (vs.length ≤ 4294967295) && wfList vs

/-- Well-formedness of a list of RESP values. -/
def wfList : List RedisValue → Bool
  | [] => true
  | v :: vs => wfValue v && wfList vs

end

mutual

/-- Array-nesting depth of a RESP value, the fuel the decoder needs. -/
def depthValue : RedisValue → Nat
  | .Array vs => depthList vs + 1
  | _ => 1

/-- Array-nesting depth of a list of RESP values. -/
def depthList : List RedisValue → Nat
  | [] => 0
  | v :: vs => max (depthValue v) (depthList vs)

end

mutual

/-- The intermediate (with buffer ranges) the parser produces for the
encoding of a value placed at the given offset of the buffer. -/
def intermediateOf : RedisValue → Nat → RedisIntermediate
  | .SimpleString s, off => .SimpleString ⟨off + 1, off + 1 + s.length⟩
  | .SimpleError s, off => .SimpleError ⟨off + 1, off + 1 + s.length⟩
  | .Integer i, _ => .Integer i
  | .NullBulkString, _ => .NullBulkString
  | .BulkString s, off =>
      .BulkString ⟨off + 1 + (natDigits s.length).length + 2,
        off + 1 + (natDigits s.length).length + 2 + s.length⟩
  | .NullArray, _ => .NullArray
  | .Array vs, off =>
      .Array (intermediatesOf vs (off + 1 + (natDigits vs.length).length + 2))

/-- The intermediates for consecutively encoded values from an offset. -/
def intermediatesOf : List RedisValue → Nat → List RedisIntermediate
  | [], _ => []
  | v :: vs, off => intermediateOf v off :: intermediatesOf vs (off + (encode_value v).length)

end

/-! ### connection.rs : the per-client connection handler

connection.rs predates the other modules: it works on a `RespValue` wire type
with string payloads and a `HashMap<String, Value>` store guarded by a lock.
Payloads are byte strings here as everywhere else, the map is the same
association-list model, and `Instant::now()` is an explicit parameter.
Instants are nanosecond counts, so `now + duration` adds
`secs * 10^9 + nanos`. -/

/-- The wire value type used by connection.rs (`crate::resp::RespValue`). -/
inductive RespValue where
  | SimpleString (s : ByteStr)
  | SimpleError (s : ByteStr)
  | Integer (i : Int)
  | NullBulkString
  | BulkString (s : ByteStr)
  | NullArray
  | Array (vs : List RespValue)
  deriving Repr

/-- Advancing a monotonic instant by a duration (`Instant + Duration`). -/
def instantAdd (now : Nat) (d : Duration) : Nat :=
  now + d.secs * 1000000000 + d.nanos

/-- Embedding of `RedisConnection::handle_cmd` (connection.rs lines 72..192)
as a pure transition: given the store, the current instant, the upper-cased
command name and the argument slice, produce the new store and the list of
reply frames sent to the client.  Every early `return` that only logs to
stdout yields no reply frame. -/
def handle_cmd (db : Db) (now : Nat) (cmd : ByteStr) (args : List RespValue) :
    Db × List RespValue :=
  if cmd = [80, 73, 78, 71] then
    (db, [.SimpleString [80, 79, 78, 71]])
  else if cmd = [69, 67, 72, 79] then
    match args with
    | [] => (db, [])
    | a :: _ => (db, [a])
  else if cmd = [83, 69, 84] then
    if args.length < 2 then (db, [])
    else
      match args.get? 0, args.get? 1 with
      | some (.BulkString key), some (.BulkString value) =>
          if args.length = 4 then
            match args.get? 2, args.get? 3 with
            | some (.BulkString expiry), some (.BulkString duration) =>
                match parseU64 duration with
                | none => (db, [])
                | some time =>
                    if toUppercase expiry = [80, 88] then
                      (dbInsert db key ⟨value, some (instantAdd now (Duration.from_millis time))⟩,
                        [.SimpleString [79, 75]])
                    else if toUppercase expiry = [69, 88] then
                      (dbInsert db key ⟨value, some (instantAdd now (Duration.from_secs time))⟩,
                        [.SimpleString [79, 75]])
                    else (db, [])
            | _, _ => (db, [])
          else
            (dbInsert db key ⟨value, none⟩, [.SimpleString [79, 75]])
      | _, _ => (db, [])
  else if cmd = [71, 69, 84] then
    match args with
    | [] => (db, [])
    | a :: _ =>
        match a with
        | .BulkString key =>
            match dbGet db key with
            | some v =>
                if v.expired now then (db, [.NullBulkString])
                else (db, [.BulkString v.get_value])
            | none => (db, [.NullBulkString])
        | _ => (db, [])
  else
    (db, [.SimpleError [85, 110, 115, 117, 112, 112, 111, 114, 116, 101, 100, 32,
      99, 111, 109, 109, 97, 110, 100]])

/-- Embedding of `RedisConnection::handle_message` (connection.rs lines
58..70): a non-array message, or one whose first element is not a bulk
string, is logged and dropped without any reply; otherwise the upper-cased
command name and the remaining elements go to `handle_cmd`. -/
def handle_message (db : Db) (now : Nat) (message : RespValue) : Db × List RespValue :=
  match message with
  | .Array array =>
      match array.head? with
      | some (.BulkString cmd) => handle_cmd db now (toUppercase cmd) (array.drop 1)
      | _ => (db, [])
  | _ => (db, [])

/-- Embedding of `RedisConnection::client_loop` (connection.rs lines 43..56)
over a finished stream of decode results: a decode error ends the loop, a
decoded message is handled and the loop continues with the rest. -/
def client_loop (db : Db) (now : Nat) : List (Except Unit RespValue) → Db × List RespValue
  | [] => (db, [])
  | .error _ :: _ => (db, [])
  | .ok message :: rest =>
      let step := handle_message db now message
      let further := client_loop step.1 now rest
      (further.1, step.2 ++ further.2)

/-! ## Theorems -/

/-- Helper: `Value::expired` is false exactly when the deadline is absent or
strictly in the future. -/
theorem expired_eq_false_iff (v : Value) (now : Nat) :
    v.expired now = false ↔
      (v.expiration = none ∨ ∃ d, v.expiration = some d ∧ now < d) := by
  unfold Value.expired
  cases h : v.expiration with
  | none => simp [h]
  | some d =>
      simp only [decide_eq_false_iff_not, not_le, Option.some.injEq, reduceCtorEq, false_or]
      constructor
      · intro hlt
        exact ⟨d, rfl, hlt⟩
      · rintro ⟨d', hd, hlt⟩
        subst hd
        exact hlt

/-- C4: `Database::get_key` returns the stored value exactly when the entry
exists and its deadline is absent or strictly later than the current instant;
an entry whose deadline is ≤ now reports a miss even before the expiry
scheduler removes it. -/
theorem C4_get_key_hit_iff (db : Db) (key : RedisKey) (now : Nat) :
    (∀ out, Database.get_key db key now = some out ↔
      ∃ v, dbGet db key = some v ∧ out = v.get_value ∧
        (v.expiration = none ∨ ∃ d, v.expiration = some d ∧ now < d)) ∧
    (∀ v d, dbGet db key = some v → v.expiration = some d → d ≤ now →
      Database.get_key db key now = none) := by
  constructor
  · intro out
    unfold Database.get_key
    cases h : dbGet db key with
    | none => simp
    | some v =>
        cases hb : v.expired now with
        | false =>
            have hc := (expired_eq_false_iff v now).mp hb
            simp only [Option.bind_eq_bind, Option.some_bind, hb, Bool.false_eq_true,
              not_false_eq_true, if_true, Option.some.injEq]
            constructor
            · intro hout
              exact ⟨v, rfl, hout.symm, hc⟩
            · rintro ⟨v', hv', rfl, _⟩
              cases hv'
              rfl
        | true =>
            simp only [Option.bind_eq_bind, Option.some_bind, hb, not_true_eq_false,
              if_false, reduceCtorEq, false_iff, not_exists]
            rintro v' ⟨hv', rfl, hcond⟩
            cases hv'
            rw [(expired_eq_false_iff v now).mpr hcond] at hb
            cases hb
  · intro v d hget hexp hle
    unfold Database.get_key
    rw [hget]
    have hexpired : v.expired now = true := by
      unfold Value.expired
      rw [hexp]
      simpa using hle
    simp [hexpired]

/-- C4 witness: a store holding key `[107]` with value `[118]` and deadline 5
reports a miss at instant 7. -/
theorem C4_get_key_hit_iff_witness :
    Database.get_key [([107], Value.mk [118] (some 5))] [107] 7 = none :=
  (C4_get_key_hit_iff [([107], Value.mk [118] (some 5))] [107] 7).2
    (Value.mk [118] (some 5)) 5 (by rfl) (by rfl) (by decide)

/-- C7 counterexample: an RPUSH request carrying only a key parses
successfully into an `RPush` command with an empty element list instead of
being rejected. -/
theorem C7_counterexample :
    RedisCommand.parse (.Array [.BulkString [82, 80, 85, 83, 72], .BulkString [107]]) =
      some (.ok (.RPush [107] [])) := by rfl

/-- C7 amended: for every key, an RPUSH array with that key and zero element
arguments is accepted by `RedisCommand::parse` and yields an `RPush` command
with an empty element list; no rejection happens. -/
theorem C7_amended (key : ByteStr) :
    RedisCommand.parse (.Array [.BulkString [82, 80, 85, 83, 72], .BulkString key]) =
      some (.ok (.RPush key [])) := by rfl

/-- Helper: a successful `expect_bulk_string` pins the checked index inside
the array. -/
theorem expect_bulk_string_ok_lt {values : List RedisValue} {index : Nat} {b : ByteStr}
    (h : RedisCommand.expect_bulk_string values index = .ok b) :
    index < values.length := by
  unfold RedisCommand.expect_bulk_string at h
  by_contra hge
  rw [List.get?_eq_none.mpr (by omega)] at h
  exact absurd h (by simp)

/-- C10: `RedisCommand::parse` is panic-free on every input: all element
accesses are checked, and the slice expressions `values[3..]` (SET) and
`values[2..]` (RPUSH) are taken only after earlier checks force the array to
be long enough, so the parser always returns a command or an error. -/
theorem C10_parse_no_panic (msg : RedisValue) : (RedisCommand.parse msg).isSome = true := by
  cases msg with
  | SimpleString s => rfl
  | SimpleError s => rfl
  | Integer i => rfl
  | NullBulkString => rfl
  | NullArray => rfl
  | BulkString s => rfl
  | Array values =>
      simp only [RedisCommand.parse]
      cases hc : commandName values with
      | none => rfl
      | some cmd =>
          dsimp only
          by_cases h1 : cmd = [80, 73, 78, 71]
          · rw [if_pos h1]; rfl
          rw [if_neg h1]
          by_cases h2 : cmd = [69, 67, 72, 79]
          · rw [if_pos h2]; rfl
          rw [if_neg h2]
          by_cases h3 : cmd = [71, 69, 84]
          · rw [if_pos h3]; rfl
          rw [if_neg h3]
          by_cases h4 : cmd = [83, 69, 84]
          · rw [if_pos h4]
            cases hk : RedisCommand.expect_bulk_string values 1 with
            | error e => rfl
            | ok key =>
                cases hv : RedisCommand.expect_bulk_string values 2 with
                | error e => rfl
                | ok value =>
                    have hlt := expect_bulk_string_ok_lt hv
                    have hs : sliceFrom values 3 = some (values.drop 3) := by
                      unfold sliceFrom
                      rw [if_pos (by omega)]
                    rw [hs]
                    rfl
          rw [if_neg h4]
          by_cases h5 : cmd = [82, 80, 85, 83, 72]
          · rw [if_pos h5]
            cases hk : RedisCommand.expect_bulk_string values 1 with
            | error e => rfl
            | ok list_name =>
                have hlt := expect_bulk_string_ok_lt hk
                have hs : sliceFrom values 2 = some (values.drop 2) := by
                  unfold sliceFrom
                  rw [if_pos (by omega)]
                rw [hs]
                rfl
          · rw [if_neg h5]; rfl

/-- C6 counterexample: two semantically invalid requests — a non-array
message, and an ECHO command with its argument missing — produce no reply at
all, in particular no SimpleError. -/
theorem C6_counterexample :
    handle_message [] 0 (.Integer 5) = ([], []) ∧
    handle_message [] 0 (.Array [.BulkString [69, 67, 72, 79]]) = ([], []) :=
  ⟨rfl, rfl⟩

/-- C6 amended: only an unsupported command name is answered with a
SimpleError; a wrong outer type, a non-bulk-string first element, or a
missing argument is dropped without any reply.  In every case the connection
stays open: the client loop keeps processing subsequent requests, stopping
only on decode errors. -/
theorem C6_amended (db : Db) (now : Nat) :
    (∀ msg, (∀ vs, msg ≠ .Array vs) → handle_message db now msg = (db, [])) ∧
    (∀ arr, (∀ s, arr.head? ≠ some (.BulkString s)) →
      handle_message db now (.Array arr) = (db, [])) ∧
    (∀ cmd args, ¬ cmd = [80, 73, 78, 71] → ¬ cmd = [69, 67, 72, 79] →
      ¬ cmd = [83, 69, 84] → ¬ cmd = [71, 69, 84] →
      handle_cmd db now cmd args =
        (db, [.SimpleError [85, 110, 115, 117, 112, 112, 111, 114, 116, 101, 100, 32,
          99, 111, 109, 109, 97, 110, 100]])) ∧
    (handle_cmd db now [69, 67, 72, 79] [] = (db, [])) ∧
    (handle_cmd db now [71, 69, 84] [] = (db, [])) ∧
    (∀ args, args.length < 2 → handle_cmd db now [83, 69, 84] args = (db, [])) ∧
    (∀ msg rest, client_loop db now (.ok msg :: rest) =
      ((client_loop (handle_message db now msg).1 now rest).1,
        (handle_message db now msg).2 ++
          (client_loop (handle_message db now msg).1 now rest).2)) := by
  refine ⟨?_, ?_, ?_, rfl, rfl, ?_, fun msg rest => rfl⟩
  · intro msg hmsg
    cases msg with
    | Array vs => exact absurd rfl (hmsg vs)
    | SimpleString s => rfl
    | SimpleError s => rfl
    | Integer i => rfl
    | NullBulkString => rfl
    | NullArray => rfl
    | BulkString s => rfl
  · intro arr harr
    simp only [handle_message]
  · intro cmd args hping hecho hset hget
    unfold handle_cmd
    rw [if_neg hping, if_neg hecho, if_neg hset, if_neg hget]
  · intro args hlen
    unfold handle_cmd
    rw [if_neg (by decide), if_neg (by decide), if_pos rfl, if_pos hlen]

/-- C6 amended witness: a concrete non-array request gets no reply, while a
concrete unsupported command name is answered with the SimpleError. -/
theorem C6_amended_witness :
    handle_message [] 0 (.Integer 5) = ([], []) ∧
    handle_cmd [] 0 [88] [] =
      ([], [.SimpleError [85, 110, 115, 117, 112, 112, 111, 114, 116, 101, 100, 32,
        99, 111, 109, 109, 97, 110, 100]]) :=
  ⟨(C6_amended [] 0).1 (.Integer 5) (fun vs h => RespValue.noConfusion h),
   (C6_amended [] 0).2.2.1 [88] [] (by decide) (by decide) (by decide) (by decide)⟩

/-- C1 counterexample: from an empty heap the scheduler receives the event
`(5, k)`, while the store meanwhile holds `k` with stored deadline 100.  When
the timer fires at instant 10 the popped deadline 5 differs from the stored
deadline 100, yet the key is removed from the store. -/
theorem C1_counterexample :
    (schedRun [([107], Value.mk [118] (some 100))] [.event (5, [107]), .timer 10]).2 = [] ∧
    dbGet [([107], Value.mk [118] (some 100))] [107] = some (Value.mk [118] (some 100)) ∧
    ¬ (100 : Nat) = 5 := by decide

/-- Helper: an absent key stays absent across `dbRemove`. -/
theorem dbGet_eq_none_iff {db : Db} {k : RedisKey} :
    dbGet db k = none ↔ ∀ e ∈ db, ¬ e.1 = k := by
  simp [dbGet, List.find?_eq_none]

/-- Helper: removing a key makes it absent. -/
theorem dbGet_dbRemove_self (db : Db) (k : RedisKey) : dbGet (dbRemove db k) k = none := by
  rw [dbGet_eq_none_iff]
  intro e he
  simpa using List.of_mem_filter he

/-- Helper: removal of any key preserves absence of another. -/
theorem dbGet_remove_none {db : Db} {k : RedisKey} (h : dbGet db k = none) (k' : RedisKey) :
    dbGet (dbRemove db k') k = none := by
  rw [dbGet_eq_none_iff] at h ⊢
  intro e he
  exact h e (List.mem_of_mem_filter he)

/-- Helper: the expiry loop never inserts into the store, so an absent key
stays absent. -/
theorem expireLoop_get_none {h : Heap} {db : Db} {now : Nat} {k : RedisKey}
    (hk : dbGet db k = none) : dbGet (expireLoop h db now).2 k = none := by
  induction h generalizing db with
  | nil => exact hk
  | cons e rest ih =>
      unfold expireLoop
      by_cases ht : e.1 > now
      · rw [if_pos ht]; exact hk
      · rw [if_neg ht]; exact ih (dbGet_remove_none hk e.2)

/-- Helper: the heap order implies ordering of deadlines. -/
theorem entryLe_fst {a b : ExpiryEvent} (h : entryLe a b = true) : a.1 ≤ b.1 := by
  unfold entryLe at h
  by_cases h1 : a.1 < b.1
  · omega
  · rw [if_neg h1] at h
    by_cases h2 : b.1 < a.1
    · rw [if_pos h2] at h; cases h
    · omega

/-- C1 amended: when the timer fires at `now`, every sorted-heap entry
`(t, k)` with `t ≤ now` causes `k` to be removed from the store
unconditionally — no comparison with the deadline currently stored for `k`
takes place.  Stale events are suppressed only by the heap rewrite performed
when a newer event for the same key arrives. -/
theorem C1_amended (heap : Heap) (db : Db) (now t : Nat) (k : RedisKey)
    (hsort : heap.Pairwise (fun a b => entryLe a b = true))
    (hmem : (t, k) ∈ heap) (ht : t ≤ now) :
    dbGet (expireLoop heap db now).2 k = none := by
  induction heap generalizing db with
  | nil => cases hmem
  | cons e rest ih =>
      unfold expireLoop
      by_cases hgt : e.1 > now
      · exfalso
        rcases List.mem_cons.mp hmem with heq | hmem'
        · rw [← heq] at hgt
          simp only at hgt
          omega
        · have hle := (List.pairwise_cons.mp hsort).1 _ hmem'
          have := entryLe_fst hle
          simp only at this
          omega
      · rw [if_neg hgt]
        rcases List.mem_cons.mp hmem with heq | hmem'
        · have hk2 : e.2 = k := by rw [← heq]
          rw [hk2]
          exact expireLoop_get_none (dbGet_dbRemove_self db k)
        · exact ih (dbRemove db e.2) (List.pairwise_cons.mp hsort).2 hmem'

/-- C1 amended witness: the concrete counterexample state run through the
amended statement. -/
theorem C1_amended_witness :
    dbGet (expireLoop [(5, [107])] [([107], Value.mk [118] (some 100))] 10).2 [107] = none :=
  C1_amended [(5, [107])] [([107], Value.mk [118] (some 100))] 10 5 [107]
    (by simp) (by simp) (by decide)

/-- Helper: ordered insertion is a permutation of plain cons. -/
theorem heapPush_perm (e : ExpiryEvent) (h : Heap) : (heapPush e h).Perm (e :: h) := by
  induction h with
  | nil => exact List.Perm.refl _
  | cons x xs ih =>
      unfold heapPush
      by_cases hle : entryLe e x
      · rw [if_pos hle]
      · rw [if_neg hle]
        exact (ih.cons x).trans (List.Perm.swap e x xs)

/-- Helper: `keyCount` only depends on the heap up to permutation. -/
theorem keyCount_perm {h1 h2 : Heap} (hp : h1.Perm h2) (k : RedisKey) :
    keyCount k h1 = keyCount k h2 :=
  (hp.filter _).length_eq

/-- Helper: `keyCount` of a cons. -/
theorem keyCount_cons (k : RedisKey) (e : ExpiryEvent) (h : Heap) :
    keyCount k (e :: h) = (if e.2 = k then 1 else 0) + keyCount k h := by
  unfold keyCount
  rw [List.filter_cons]
  by_cases hek : e.2 = k
  · simp only [hek, decide_True, if_true, List.length_cons]
    omega
  · simp [hek]

/-- Helper: after the retain step no entry with the retained-away key is left. -/
theorem keyCount_retain_self (k : RedisKey) (h : Heap) :
    keyCount k (h.filter (fun evt => ¬ evt.2 = k)) = 0 := by
  unfold keyCount
  rw [List.length_eq_zero, List.filter_eq_nil_iff]
  intro a ha
  have := List.of_mem_filter ha
  simp only [decide_not, Bool.not_eq_true', decide_eq_false_iff_not] at this
  simpa using this

/-- Helper: a sublist has a smaller `keyCount`. -/
theorem keyCount_sublist {h1 h2 : Heap} (hs : h1.Sublist h2) (k : RedisKey) :
    keyCount k h1 ≤ keyCount k h2 :=
  (hs.filter _).length_le

/-- Helper: membership in the heap after an event. -/
theorem mem_onEvent {t t0 : Nat} {k k0 : RedisKey} {heap : Heap} :
    (t, k) ∈ onEvent (t0, k0) heap ↔
      (t = t0 ∧ k = k0) ∨ ((t, k) ∈ heap ∧ ¬ k = k0) := by
  unfold onEvent
  rw [(heapPush_perm _ _).mem_iff]
  simp [List.mem_filter, Prod.ext_iff]

/-- Helper: after an event for key `k0` the heap has exactly one `k0` entry. -/
theorem keyCount_onEvent_self (t0 : Nat) (k0 : RedisKey) (heap : Heap) :
    keyCount k0 (onEvent (t0, k0) heap) = 1 := by
  unfold onEvent
  rw [keyCount_perm (heapPush_perm _ _), keyCount_cons, keyCount_retain_self]
  simp

/-- Helper: the timer branch only pops from the heap. -/
theorem expireLoop_sublist (h : Heap) (db : Db) (now : Nat) :
    ((expireLoop h db now).1).Sublist h := by
  induction h generalizing db with
  | nil => exact List.Sublist.refl _
  | cons e rest ih =>
      unfold expireLoop
      by_cases hgt : e.1 > now
      · rw [if_pos hgt]
      · rw [if_neg hgt]
        exact (ih (dbRemove db e.2)).cons e

/-- Helper: one-step unfolding of `lastEventDeadline`. -/
theorem lastEventDeadline_cons (k : RedisKey) (a : SchedAction) (rest : List SchedAction) :
    lastEventDeadline k (a :: rest) =
      match lastEventDeadline k rest with
      | some t => some t
      | none =>
          match a with
          | .event (t, k') => if k' = k then some t else none
          | .timer _ => none := rfl

/-- Helper: invariant of the scheduler loop, generalized over the starting
heap: key multiplicity stays at most one, and every surviving entry carries
either the deadline of the most recent event for its key, or (when no event
for it was processed) its entry from the starting heap. -/
theorem schedSteps_inv (acts : List SchedAction) (heap : Heap) (db : Db)
    (hcount : ∀ k, keyCount k heap ≤ 1) :
    (∀ k, keyCount k (acts.foldl schedStep (heap, db)).1 ≤ 1) ∧
    (∀ t k, (t, k) ∈ (acts.foldl schedStep (heap, db)).1 →
      lastEventDeadline k acts = some t ∨
        (lastEventDeadline k acts = none ∧ (t, k) ∈ heap)) := by
  induction acts generalizing heap db with
  | nil =>
      refine ⟨hcount, ?_⟩
      intro t k hm
      exact Or.inr ⟨rfl, hm⟩
  | cons a rest ih =>
      cases a with
      | event e =>
          obtain ⟨t0, k0⟩ := e
          have hcount' : ∀ k, keyCount k (onEvent (t0, k0) heap) ≤ 1 := by
            intro k
            by_cases hk : k = k0
            · subst hk
              rw [keyCount_onEvent_self]
            · unfold onEvent
              rw [keyCount_perm (heapPush_perm _ _), keyCount_cons]
              rw [if_neg (fun h => hk h.symm)]
              exact le_trans
                (by simpa using keyCount_sublist (List.filter_sublist _) k) (hcount k)
          obtain ⟨ihc, ihm⟩ := ih (onEvent (t0, k0) heap) db hcount'
          rw [List.foldl_cons]
          refine ⟨ihc, ?_⟩
          intro t k hm
          rcases ihm t k hm with hsome | ⟨hnone, hmem⟩
          · left
            rw [lastEventDeadline_cons, hsome]
          · by_cases hk : k = k0
            · subst hk
              have ht : t = t0 := by
                rcases mem_onEvent.mp hmem with ⟨h1, _⟩ | ⟨_, h2⟩
                · exact h1
                · exact absurd rfl h2
              subst ht
              left
              rw [lastEventDeadline_cons, hnone]
              simp
            · have hmem' : (t, k) ∈ heap := by
                rcases mem_onEvent.mp hmem with ⟨_, h2⟩ | ⟨h1, _⟩
                · exact absurd h2 hk
                · exact h1
              right
              refine ⟨?_, hmem'⟩
              rw [lastEventDeadline_cons, hnone]
              simp only
              rw [if_neg (fun h => hk h.symm)]
      | timer now =>
          have hcount' : ∀ k, keyCount k (expireLoop heap db now).1 ≤ 1 :=
            fun k => le_trans (keyCount_sublist (expireLoop_sublist heap db now) k) (hcount k)
          obtain ⟨ihc, ihm⟩ :=
            ih (expireLoop heap db now).1 (expireLoop heap db now).2 hcount'
          rw [List.foldl_cons]
          have hpair : schedStep (heap, db) (.timer now) =
              ((expireLoop heap db now).1, (expireLoop heap db now).2) := by
            simp [schedStep]
          rw [hpair]
          refine ⟨ihc, ?_⟩
          intro t k hm
          rcases ihm t k hm with hsome | ⟨hnone, hmem⟩
          · left
            rw [lastEventDeadline_cons, hsome]
          · right
            refine ⟨?_, (expireLoop_sublist heap db now).subset hmem⟩
            rw [lastEventDeadline_cons, hnone]

/-- C5: for every action sequence processed by the scheduler from an empty
heap, the heap contains at most one entry per key, and each entry carries the
deadline of the most recently received expiry event for its key (the event
branch removes every entry with the event's key before pushing the event). -/
theorem C5_heap_one_entry_per_key (acts : List SchedAction) (db0 : Db) :
    (∀ k, keyCount k (schedRun db0 acts).1 ≤ 1) ∧
    (∀ t k, (t, k) ∈ (schedRun db0 acts).1 → lastEventDeadline k acts = some t) := by
  obtain ⟨hc, hm⟩ := schedSteps_inv acts [] db0 (fun k => by simp [keyCount])
  refine ⟨hc, ?_⟩
  intro t k hmem
  rcases hm t k hmem with hsome | ⟨_, habs⟩
  · exact hsome
  · cases habs

/-- C5 witness: two successive events for the same key leave one heap entry,
holding the later deadline. -/
theorem C5_heap_one_entry_per_key_witness :
    keyCount [107] (schedRun [] [.event (5, [107]), .event (9, [107])]).1 ≤ 1 ∧
    lastEventDeadline [107] [.event (5, [107]), .event (9, [107])] = some 9 :=
  ⟨(C5_heap_one_entry_per_key [.event (5, [107]), .event (9, [107])] []).1 [107],
   (C5_heap_one_entry_per_key [.event (5, [107]), .event (9, [107])] []).2 9 [107] (by decide)⟩

/-- C3 counterexample: the input `$3\r\nabcXY` — whose two bytes after the
3-byte payload are `XY`, not CRLF — is accepted as a complete BulkString
frame covering the payload `abc`. -/
theorem C3_counterexample :
    parse [36, 51, 13, 10, 97, 98, 99, 88, 89] 0 =
      .ok (some (9, .BulkString ⟨4, 7⟩)) := by rfl

/-- C3 amended: once a bulk-string header declares a non-negative length LEN
(within the u32 bound), the frame is reported complete exactly when LEN + 2
bytes follow the header; with fewer bytes the decoder reports "need more
input".  The two bytes after the payload are skipped without being checked
against CRLF. -/
theorem C3_amended (input : ByteStr) (pos p : Nat) (length : Int)
    (hint : int input pos = .ok (some (p, length))) (hnn : 0 ≤ length)
    (hmax : length ≤ 4294967295) :
    (input.length < p + length.toNat + 2 → parse_bulk_string input pos = .ok none) ∧
    (p + length.toNat + 2 ≤ input.length →
      parse_bulk_string input pos =
        .ok (some (p + length.toNat + 2, .BulkString ⟨p, p + length.toNat⟩))) := by
  unfold parse_bulk_string
  rw [hint]
  dsimp only
  rw [if_neg (by omega), if_pos (by omega), if_neg (by omega)]
  constructor
  · intro hlt
    rw [if_pos hlt]
  · intro hge
    rw [if_neg (by omega)]

/-- C3 amended witness: the counterexample input run through the amended
statement (`p = 4`, `LEN = 3`, 9 bytes available). -/
theorem C3_amended_witness :
    parse_bulk_string [36, 51, 13, 10, 97, 98, 99, 88, 89] 1 =
      .ok (some (9, .BulkString ⟨4, 7⟩)) :=
  (C3_amended [36, 51, 13, 10, 97, 98, 99, 88, 89] 1 4 3 (by rfl) (by decide)
    (by decide)).2 (by decide)

/-- C8: once a bulk-string or array header parses to a declared length, a
length above `u32::MAX` fails with `ExceededMaxLength` and a length below −1
fails with `InvalidBulkStringLength` (bulk) / `InvalidArrayLength` (array);
both errors are produced for every child decoder and independently of any
bytes after the header, i.e. before any payload is materialized. -/
theorem C8_length_bounds (input : ByteStr) (pos p : Nat) (length : Int)
    (child : ByteStr → Nat → ParseResult)
    (hint : int input pos = .ok (some (p, length))) :
    (length > 4294967295 →
      parse_bulk_string input pos = .error .ExceededMaxLength ∧
      parse_array child input pos = .error .ExceededMaxLength) ∧
    (length < -1 →
      parse_bulk_string input pos = .error (.InvalidBulkStringLength length) ∧
      parse_array child input pos = .error (.InvalidArrayLength length)) := by
  constructor
  · intro hbig
    constructor
    · unfold parse_bulk_string
      rw [hint]
      dsimp only
      rw [if_neg (by omega), if_pos (by omega), if_pos hbig]
    · unfold parse_array
      rw [hint]
      dsimp only
      rw [if_neg (by omega), if_pos (by omega), if_pos hbig]
  · intro hsmall
    constructor
    · unfold parse_bulk_string
      rw [hint]
      dsimp only
      rw [if_neg (by omega), if_neg (by omega)]
    · unfold parse_array
      rw [hint]
      dsimp only
      rw [if_neg (by omega), if_neg (by omega)]

/-- C8 witness: the decoder inputs `$4294967296\r\n`, `*4294967296\r\n`,
`$-2\r\n` and `*-2\r\n` produce the four claimed errors (the child decoder of
the array case is the one `parse` uses). -/
theorem C8_length_bounds_witness :
    (parse_bulk_string [36, 52, 50, 57, 52, 57, 54, 55, 50, 57, 54, 13, 10] 1 =
        .error .ExceededMaxLength ∧
      parse_array (parseF 13) [42, 52, 50, 57, 52, 57, 54, 55, 50, 57, 54, 13, 10] 1 =
        .error .ExceededMaxLength) ∧
    (parse_bulk_string [36, 45, 50, 13, 10] 1 = .error (.InvalidBulkStringLength (-2)) ∧
      parse_array (parseF 5) [42, 45, 50, 13, 10] 1 = .error (.InvalidArrayLength (-2))) :=
  ⟨⟨((C8_length_bounds [36, 52, 50, 57, 52, 57, 54, 55, 50, 57, 54, 13, 10] 1 13 4294967296
        (parseF 13) (by rfl)).1 (by decide)).1,
    ((C8_length_bounds [42, 52, 50, 57, 52, 57, 54, 55, 50, 57, 54, 13, 10] 1 13 4294967296
        (parseF 13) (by rfl)).1 (by decide)).2⟩,
   ⟨((C8_length_bounds [36, 45, 50, 13, 10] 1 5 (-2) (parseF 5) (by rfl)).2 (by decide)).1,
    ((C8_length_bounds [42, 45, 50, 13, 10] 1 5 (-2) (parseF 5) (by rfl)).2 (by decide)).2⟩⟩

/-- Helper: one successful PX pair overwrites the accumulator with its
millisecond duration and continues with the remaining tokens. -/
theorem setOptLoop_px_step (v dur : RedisValue) (rest : List RedisValue)
    (exp : Option Duration) (ds : ByteStr) (n : Nat)
    (hv : tryIntoString v = .ok [80, 88]) (hd : tryIntoString dur = .ok ds)
    (hn : parseU64 ds = some n) :
    setOptLoop (v :: dur :: rest) exp = setOptLoop rest (some (Duration.from_millis n)) := by
  conv_lhs => unfold setOptLoop
  rw [hv]
  dsimp only [Bind.bind, Monad.toBind, Except.instMonad, Except.bind]
  rw [if_pos rfl]
  unfold process_time
  rw [hd]
  dsimp only [Bind.bind, Monad.toBind, Except.instMonad, Except.bind]
  rw [hn]

/-- Helper: one successful EX pair overwrites the accumulator with its
second duration and continues with the remaining tokens. -/
theorem setOptLoop_ex_step (v dur : RedisValue) (rest : List RedisValue)
    (exp : Option Duration) (ds : ByteStr) (n : Nat)
    (hv : tryIntoString v = .ok [69, 88]) (hd : tryIntoString dur = .ok ds)
    (hn : parseU64 ds = some n) :
    setOptLoop (v :: dur :: rest) exp = setOptLoop rest (some (Duration.from_secs n)) := by
  conv_lhs => unfold setOptLoop
  rw [hv]
  dsimp only [Bind.bind, Monad.toBind, Except.instMonad, Except.bind]
  rw [if_neg (by decide), if_pos rfl]
  unfold process_time
  rw [hd]
  dsimp only [Bind.bind, Monad.toBind, Except.instMonad, Except.bind]
  rw [hn]

/-- Helper: a final TTL pair alone determines the result. -/
theorem setOptLoop_pair_ok (v dur : RedisValue) (exp r : Option Duration) (ds : ByteStr)
    (n : Nat) (target : Duration)
    (hv : (tryIntoString v = .ok [80, 88] ∧ target = Duration.from_millis n) ∨
      (tryIntoString v = .ok [69, 88] ∧ target = Duration.from_secs n))
    (hd : tryIntoString dur = .ok ds) (hn : parseU64 ds = some n)
    (hok : setOptLoop [v, dur] exp = .ok r) : r = some target := by
  rcases hv with ⟨hv, htgt⟩ | ⟨hv, htgt⟩
  · rw [setOptLoop_px_step v dur [] exp ds n hv hd hn] at hok
    rw [htgt]
    exact (Except.ok.inj hok).symm
  · rw [setOptLoop_ex_step v dur [] exp ds n hv hd hn] at hok
    rw [htgt]
    exact (Except.ok.inj hok).symm

/-- Helper: strong-induction core of the last-pair-wins property, keyed over
both TTL keywords at once and bounding the prefix length. -/
theorem setOptLoop_last_aux (L : Nat) :
    ∀ (pre : List RedisValue), pre.length ≤ L →
    ∀ (v dur : RedisValue) (exp r : Option Duration) (ds : ByteStr) (n : Nat)
      (target : Duration),
    ((tryIntoString v = .ok [80, 88] ∧ target = Duration.from_millis n) ∨
      (tryIntoString v = .ok [69, 88] ∧ target = Duration.from_secs n)) →
    tryIntoString dur = .ok ds → parseU64 ds = some n →
    setOptLoop (pre ++ [v, dur]) exp = .ok r → r = some target := by
  induction L with
  | zero =>
      intro pre hlen v dur exp r ds n target hv hd hn hok
      have hpre : pre = [] := List.length_eq_zero.mp (Nat.le_zero.mp hlen)
      subst hpre
      exact setOptLoop_pair_ok v dur exp r ds n target hv hd hn hok
  | succ L IH =>
      intro pre hlen v dur exp r ds n target hv hd hn hok
      match pre with
      | [] =>
          exact setOptLoop_pair_ok v dur exp r ds n target hv hd hn hok
      | [x] =>
          exfalso
          rw [List.cons_append, List.nil_append] at hok
          unfold setOptLoop at hok
          cases hx : tryIntoString x with
          | error e => rw [hx] at hok; cases hok
          | ok arg =>
              rw [hx] at hok
              dsimp only [Bind.bind, Monad.toBind, Except.instMonad, Except.bind] at hok
              have hvnum : ∀ f, process_time v f = .error () := by
                intro f
                unfold process_time
                rcases hv with ⟨hv, _⟩ | ⟨hv, _⟩ <;> rw [hv] <;> rfl
              by_cases hpx : arg = [80, 88]
              · rw [if_pos hpx, hvnum] at hok
                cases hok
              · rw [if_neg hpx] at hok
                by_cases hex : arg = [69, 88]
                · rw [if_pos hex, hvnum] at hok
                  cases hok
                · rw [if_neg hex] at hok
                  cases hok
      | x :: y :: pre' =>
          rw [List.cons_append, List.cons_append] at hok
          unfold setOptLoop at hok
          cases hx : tryIntoString x with
          | error e => rw [hx] at hok; cases hok
          | ok arg =>
              rw [hx] at hok
              dsimp only [Bind.bind, Monad.toBind, Except.instMonad, Except.bind] at hok
              have hlen' : pre'.length ≤ L := by
                simp only [List.length_cons] at hlen
                omega
              by_cases hpx : arg = [80, 88]
              · rw [if_pos hpx] at hok
                cases hy : process_time y Duration.from_millis with
                | error e => rw [hy] at hok; cases hok
                | ok d =>
                    rw [hy] at hok
                    dsimp only [Bind.bind, Monad.toBind, Except.instMonad, Except.bind] at hok
                    exact IH pre' hlen' v dur (some d) r ds n target hv hd hn hok
              · rw [if_neg hpx] at hok
                by_cases hex : arg = [69, 88]
                · rw [if_pos hex] at hok
                  cases hy : process_time y Duration.from_secs with
                  | error e => rw [hy] at hok; cases hok
                  | ok d =>
                      rw [hy] at hok
                      dsimp only [Bind.bind, Monad.toBind, Except.instMonad, Except.bind] at hok
                      exact IH pre' hlen' v dur (some d) r ds n target hv hd hn hok
                · rw [if_neg hex] at hok
                  cases hok

/-- C9: the tokens after a SET value are consumed pairwise by the option
loop: a PX pair overwrites the pending TTL with a millisecond duration, an EX
pair with a second duration, an unparsable duration or an unknown keyword is
a parse error, and when the loop succeeds the last TTL pair determines the
resulting expiration; `RedisCommand::parse` of a SET request defers to this
loop over `values[3..]`. -/
theorem C9_set_options (key value : ByteStr) (opts : List RedisValue) :
    (RedisCommand.parse (.Array (.BulkString [83, 69, 84] :: .BulkString key ::
        .BulkString value :: opts)) =
      some (match setOptLoop opts none with
            | .ok expiration => .ok (.Set key value expiration)
            | .error e => .error e)) ∧
    (∀ (v dur : RedisValue) (rest : List RedisValue) (exp : Option Duration)
        (ds : ByteStr) (n : Nat),
      tryIntoString v = .ok [80, 88] → tryIntoString dur = .ok ds → parseU64 ds = some n →
      setOptLoop (v :: dur :: rest) exp = setOptLoop rest (some (Duration.from_millis n))) ∧
    (∀ (v dur : RedisValue) (rest : List RedisValue) (exp : Option Duration)
        (ds : ByteStr) (n : Nat),
      tryIntoString v = .ok [69, 88] → tryIntoString dur = .ok ds → parseU64 ds = some n →
      setOptLoop (v :: dur :: rest) exp = setOptLoop rest (some (Duration.from_secs n))) ∧
    (∀ (v dur : RedisValue) (rest : List RedisValue) (exp : Option Duration) (ds : ByteStr),
      (tryIntoString v = .ok [80, 88] ∨ tryIntoString v = .ok [69, 88]) →
      tryIntoString dur = .ok ds → parseU64 ds = none →
      setOptLoop (v :: dur :: rest) exp = .error ()) ∧
    (∀ (v : RedisValue) (rest : List RedisValue) (exp : Option Duration) (arg : ByteStr),
      tryIntoString v = .ok arg → ¬ arg = [80, 88] → ¬ arg = [69, 88] →
      setOptLoop (v :: rest) exp = .error ()) ∧
    (∀ (pre : List RedisValue) (v dur : RedisValue) (exp r : Option Duration)
        (ds : ByteStr) (n : Nat),
      tryIntoString v = .ok [80, 88] → tryIntoString dur = .ok ds → parseU64 ds = some n →
      setOptLoop (pre ++ [v, dur]) exp = .ok r → r = some (Duration.from_millis n)) ∧
    (∀ (pre : List RedisValue) (v dur : RedisValue) (exp r : Option Duration)
        (ds : ByteStr) (n : Nat),
      tryIntoString v = .ok [69, 88] → tryIntoString dur = .ok ds → parseU64 ds = some n →
      setOptLoop (pre ++ [v, dur]) exp = .ok r → r = some (Duration.from_secs n)) := by
  refine ⟨?_, setOptLoop_px_step, setOptLoop_ex_step, ?_, ?_, ?_, ?_⟩
  · simp only [RedisCommand.parse]
    have hcn : commandName (.BulkString [83, 69, 84] :: .BulkString key ::
        .BulkString value :: opts) = some [83, 69, 84] := rfl
    rw [hcn]
    dsimp only
    rw [if_neg (by decide), if_neg (by decide), if_neg (by decide), if_pos rfl]
    have h1 : RedisCommand.expect_bulk_string (.BulkString [83, 69, 84] ::
        .BulkString key :: .BulkString value :: opts) 1 = .ok key := rfl
    have h2 : RedisCommand.expect_bulk_string (.BulkString [83, 69, 84] ::
        .BulkString key :: .BulkString value :: opts) 2 = .ok value := rfl
    rw [h1]
    dsimp only
    rw [h2]
    dsimp only
    have hs : sliceFrom (.BulkString [83, 69, 84] :: .BulkString key ::
        .BulkString value :: opts) 3 = some opts := by
      unfold sliceFrom
      rw [if_pos (by simp)]
      rfl
    rw [hs]
    dsimp only
    cases setOptLoop opts none <;> rfl
  · intro v dur rest exp ds hv hd hnone
    conv_lhs => unfold setOptLoop
    rcases hv with hv | hv
    · rw [hv]
      dsimp only [Bind.bind, Monad.toBind, Except.instMonad, Except.bind]
      rw [if_pos rfl]
      unfold process_time
      rw [hd]
      dsimp only [Bind.bind, Monad.toBind, Except.instMonad, Except.bind]
      rw [hnone]
    · rw [hv]
      dsimp only [Bind.bind, Monad.toBind, Except.instMonad, Except.bind]
      rw [if_neg (by decide), if_pos rfl]
      unfold process_time
      rw [hd]
      dsimp only [Bind.bind, Monad.toBind, Except.instMonad, Except.bind]
      rw [hnone]
  · intro v rest exp arg hv hpx hex
    conv_lhs => unfold setOptLoop
    rw [hv]
    dsimp only [Bind.bind, Monad.toBind, Except.instMonad, Except.bind]
    rw [if_neg hpx, if_neg hex]
  · intro pre v dur exp r ds n hv hd hn hok
    exact setOptLoop_last_aux pre.length pre (le_refl _) v dur exp r ds n
      (Duration.from_millis n) (Or.inl ⟨hv, rfl⟩) hd hn hok
  · intro pre v dur exp r ds n hv hd hn hok
    exact setOptLoop_last_aux pre.length pre (le_refl _) v dur exp r ds n
      (Duration.from_secs n) (Or.inr ⟨hv, rfl⟩) hd hn hok

/-- C9 witness: a plain SET parses with no TTL; a PX pair overwrites an
earlier pending TTL with its millisecond duration; and for the option list
`PX 100 EX 2` the last pair wins, leaving a two-second expiration. -/
theorem C9_set_options_witness :
    RedisCommand.parse (.Array [.BulkString [83, 69, 84], .BulkString [107],
        .BulkString [118]]) = some (.ok (.Set [107] [118] none)) ∧
    setOptLoop [.BulkString [80, 88], .BulkString [49, 48, 48]]
      (some (Duration.from_secs 7)) = .ok (some (Duration.from_millis 100)) ∧
    (some (Duration.from_secs 2) : Option Duration) = some (Duration.from_secs 2) := by
  refine ⟨?_, ?_, ?_⟩
  · exact (C9_set_options [107] [118] []).1
  · exact (C9_set_options [107] [118] []).2.1 (.BulkString [80, 88])
      (.BulkString [49, 48, 48]) [] (some (Duration.from_secs 7)) [49, 48, 48] 100
      (by rfl) (by rfl) (by rfl)
  · exact (C9_set_options [107] [118] []).2.2.2.2.2.2
      [.BulkString [80, 88], .BulkString [49, 48, 48]] (.BulkString [69, 88])
      (.BulkString [50]) none (some (Duration.from_secs 2)) [50] 2
      (by rfl) (by rfl) (by rfl) (by rfl)

/-! ### Decimal digit helpers for the codec round-trip -/

/-- Helper: `digitsVal` over an append splits sequentially. -/
theorem digitsVal_append (A B : List Nat) (acc : Nat) :
    digitsVal (A ++ B) acc = (digitsVal A acc).bind (fun a => digitsVal B a) := by
  induction A generalizing acc with
  | nil => rfl
  | cons b A ih =>
      simp only [List.cons_append, digitsVal]
      cases hd : decDigit b with
      | some d =>
          dsimp only
          exact ih (acc * 10 + d)
      | none => rfl

/-- Helper: `digitsVal` recovers the number along `natDigitsAux`. -/
theorem digitsVal_natDigitsAux (fuel : Nat) :
    ∀ n acc, n ≤ fuel →
      digitsVal (natDigitsAux fuel n) acc =
        some (acc * 10 ^ (natDigitsAux fuel n).length + n) := by
  induction fuel with
  | zero =>
      intro n acc hn
      have h0 : n = 0 := Nat.le_zero.mp hn
      subst h0
      simp [natDigitsAux, digitsVal]
  | succ fuel ih =>
      intro n acc hn
      by_cases h0 : n = 0
      · subst h0
        simp [natDigitsAux, digitsVal]
      · unfold natDigitsAux
        rw [if_neg h0, digitsVal_append, ih (n / 10) acc (by omega)]
        simp only [Option.some_bind]
        unfold digitsVal decDigit
        rw [if_pos (by omega)]
        dsimp only
        unfold digitsVal
        rw [List.length_append, List.length_singleton, pow_succ, ← Nat.mul_assoc]
        congr 1
        omega

/-- Helper: digit bytes produced by `natDigitsAux` are ASCII digits. -/
theorem natDigitsAux_digits (fuel : Nat) :
    ∀ n b, b ∈ natDigitsAux fuel n → 48 ≤ b ∧ b ≤ 57 := by
  induction fuel with
  | zero => intro n b hb; cases hb
  | succ fuel ih =>
      intro n b hb
      unfold natDigitsAux at hb
      by_cases h0 : n = 0
      · rw [if_pos h0] at hb; cases hb
      · rw [if_neg h0] at hb
        rcases List.mem_append.mp hb with hb | hb
        · exact ih _ b hb
        · rcases List.mem_singleton.mp hb with rfl
          omega

/-- Helper: `natDigitsAux` of a positive number is nonempty. -/
theorem natDigitsAux_ne_nil (fuel n : Nat) (h0 : ¬ n = 0) (hf : 0 < fuel) :
    ¬ natDigitsAux fuel n = [] := by
  cases fuel with
  | zero => cases hf
  | succ fuel =>
      unfold natDigitsAux
      rw [if_neg h0]
      simp

/-- Helper: the digit run of a number parses back to it. -/
theorem parseDigits_natDigits (n : Nat) : parseDigits (natDigits n) = some n := by
  unfold natDigits
  by_cases h0 : n = 0
  · subst h0
    decide
  · rw [if_neg h0]
    obtain ⟨d, ds, hds⟩ : ∃ d ds, natDigitsAux n n = d :: ds := by
      cases hA : natDigitsAux n n with
      | nil => exact absurd hA (natDigitsAux_ne_nil n n h0 (by omega))
      | cons d ds => exact ⟨d, ds, rfl⟩
    have hv := digitsVal_natDigitsAux n n 0 (le_refl n)
    rw [hds] at hv ⊢
    show digitsVal (d :: ds) 0 = some n
    rw [hv]
    simp

/-- Helper: digit bytes of `natDigits` are ASCII digits. -/
theorem natDigits_digits (n : Nat) : ∀ b ∈ natDigits n, 48 ≤ b ∧ b ≤ 57 := by
  intro b hb
  unfold natDigits at hb
  by_cases h0 : n = 0
  · rw [if_pos h0] at hb
    rcases List.mem_singleton.mp hb with rfl
    omega
  · rw [if_neg h0] at hb
    exact natDigitsAux_digits n n b hb

/-- Helper: bytes of `intToBytes` are the minus sign or ASCII digits. -/
theorem intToBytes_bytes (i : Int) : ∀ b ∈ intToBytes i, 45 ≤ b ∧ b ≤ 57 := by
  intro b hb
  unfold intToBytes at hb
  by_cases hneg : i < 0
  · rw [if_pos hneg] at hb
    rcases List.mem_cons.mp hb with rfl | hb
    · omega
    · have := natDigits_digits i.natAbs b hb
      omega
  · rw [if_neg hneg] at hb
    have := natDigits_digits i.toNat b hb
    omega

/-- Helper: lists of bytes below 128 are valid UTF-8 (pure ASCII). -/
theorem utf8Valid_ascii : ∀ l : List Nat, (∀ b ∈ l, b ≤ 127) → utf8Valid l = true := by
  intro l
  induction l with
  | nil => intro _; rfl
  | cons b l ih =>
      intro h
      rw [utf8Valid]
      rw [if_pos (h b (List.mem_cons_self b l))]
      exact ih (fun x hx => h x (List.mem_cons_of_mem b hx))

/-- Helper: `parseDigits` of a digit run is insensitive to how the list is
exposed; a digit-headed list is never the sign patterns of `parseI64`. -/
theorem parseI64_intToBytes (i : Int) (h1 : -(2 ^ 63) ≤ i) (h2 : i < 2 ^ 63) :
    parseI64 (intToBytes i) = some i := by
  unfold intToBytes
  by_cases hneg : i < 0
  · rw [if_pos hneg]
    show (parseDigits (natDigits i.natAbs)).bind
        (fun n => if n ≤ 2 ^ 63 then some (-(n : Int)) else none) = some i
    rw [parseDigits_natDigits]
    simp only [Option.some_bind]
    rw [if_pos (by omega)]
    congr 1
    omega
  · rw [if_neg hneg]
    obtain ⟨d, ds, hds, hd48⟩ :
        ∃ d ds, natDigits i.toNat = d :: ds ∧ 48 ≤ d := by
      cases hA : natDigits i.toNat with
      | nil =>
          exfalso
          unfold natDigits at hA
          by_cases h0 : i.toNat = 0
          · rw [if_pos h0] at hA; cases hA
          · rw [if_neg h0] at hA
            exact natDigitsAux_ne_nil i.toNat i.toNat h0 (Nat.pos_of_ne_zero h0) hA
      | cons d ds =>
          refine ⟨d, ds, rfl, ?_⟩
          exact (natDigits_digits i.toNat d (by rw [hA]; exact List.mem_cons_self d ds)).1
    rw [hds]
    unfold parseI64
    split
    · rename_i heq
      exfalso
      injection heq with hh1 hh2
      omega
    · rename_i heq
      exfalso
      injection heq with hh1 hh2
      omega
    · rw [← hds, parseDigits_natDigits]
      simp only [Option.some_bind]
      rw [if_pos (by omega)]
      congr 1
      omega

/-! ### Word-level helpers for the codec round-trip -/

/-- Helper: `findIdx?` locates the CR right after a CR-free prefix. -/
theorem findIdx_first13 (word : ByteStr) (rest : ByteStr) (hcr : ¬ 13 ∈ word) :
    (word ++ 13 :: rest).findIdx? (fun b => b = 13) = some word.length := by
  induction word with
  | nil => simp
  | cons b w ih =>
      have hb : ¬ b = 13 := fun h => hcr (h ▸ List.mem_cons_self b w)
      simp only [List.cons_append, List.findIdx?_cons]
      rw [if_neg (by simpa using hb), List.findIdx?_succ,
        ih (fun hm => hcr (List.mem_cons_of_mem b hm))]
      simp

/-- Helper: indexing an append at the junction returns the head byte. -/
theorem getD_append_exact (A : ByteStr) (b : Nat) (rest : ByteStr) (n : Nat)
    (hn : n = A.length) : (A ++ b :: rest).getD n 0 = b := by
  subst hn
  rw [List.getD_append_right A (b :: rest) 0 A.length (le_refl _)]
  simp

/-- Helper: slicing out the middle of an append. -/
theorem slice_exact (pre mid rest : ByteStr) :
    slice (pre ++ mid ++ rest) pre.length (pre.length + mid.length) = mid := by
  unfold slice
  rw [← List.take_drop, List.append_assoc, List.drop_left, List.take_left]

/-- Helper: `parse_word` on a CR-free word terminated by CRLF consumes
through the CRLF and returns the word's range. -/
theorem parse_word_exact (pre word post : ByteStr) (hcr : ¬ 13 ∈ word) :
    parse_word (pre ++ word ++ 13 :: 10 :: post) pre.length =
      some (pre.length + word.length + 2, ⟨pre.length, pre.length + word.length⟩) := by
  unfold parse_word
  have hlen : (pre ++ word ++ 13 :: 10 :: post).length =
      pre.length + word.length + 2 + post.length := by
    simp [List.length_append]
    omega
  rw [if_neg (by rw [hlen]; omega)]
  have hdrop : (pre ++ word ++ 13 :: 10 :: post).drop pre.length = word ++ 13 :: 10 :: post := by
    rw [List.append_assoc, List.drop_left]
  rw [hdrop, findIdx_first13 word (10 :: post) hcr]
  dsimp only
  have hget : (pre ++ word ++ 13 :: 10 :: post).getD (pre.length + word.length + 1) 0 = 10 := by
    have hshape : pre ++ word ++ 13 :: 10 :: post = (pre ++ word ++ [13]) ++ 10 :: post := by
      simp
    rw [hshape]
    exact getD_append_exact (pre ++ word ++ [13]) 10 post _
      (by simp [List.length_append, Nat.add_assoc])
  rw [if_pos ⟨by rw [hlen]; omega, hget⟩]

/-- Helper: `int` on an encoded i64 terminated by CRLF parses it back. -/
theorem int_exact (pre : ByteStr) (i : Int) (post : ByteStr)
    (h1 : -(2 ^ 63) ≤ i) (h2 : i < 2 ^ 63) :
    int (pre ++ intToBytes i ++ 13 :: 10 :: post) pre.length =
      .ok (some (pre.length + (intToBytes i).length + 2, i)) := by
  unfold int
  have hcr : ¬ 13 ∈ intToBytes i := fun hm => by
    have := intToBytes_bytes i 13 hm
    omega
  rw [parse_word_exact pre (intToBytes i) post hcr]
  split
  next p int_range heq =>
      injection heq with heq
      injection heq with heqp heqr
      subst heqp
      subst heqr
      rw [slice_exact pre (intToBytes i) (13 :: 10 :: post)]
      unfold_let
      rw [utf8Valid_ascii _ (fun b hb => by have := intToBytes_bytes i b hb; omega)]
      rw [if_pos rfl, parseI64_intToBytes i h1 h2]
  next heq => cases heq

/-- Helper: every encoding is nonempty. -/
theorem encode_value_ne_nil (v : RedisValue) : ¬ encode_value v = [] := by
  cases v <;> simp [encode_value]

/-- Helper: the nesting depth is at least one. -/
theorem one_le_depthValue (v : RedisValue) : 1 ≤ depthValue v := by
  cases v <;> simp [depthValue]

/-- Helper: reading the buffer at the start of the encoded frame returns the
frame's tag byte. -/
theorem getD_head (pre : ByteStr) (b : Nat) (X post : ByteStr) :
    (pre ++ (b :: X) ++ post).getD pre.length 0 = b := by
  rw [List.append_assoc, List.cons_append]
  exact getD_append_exact pre b (X ++ post) _ rfl

/-- Helper: the length of a three-way append. -/
theorem length_append3 (pre mid post : ByteStr) :
    (pre ++ mid ++ post).length = pre.length + mid.length + post.length := by
  simp [List.length_append, Nat.add_assoc]

set_option maxHeartbeats 1000000

mutual

theorem parse_encode_value (v : RedisValue) (hwf : wfValue v = true) (pre post : ByteStr)
    (fuel : Nat) (hfuel : depthValue v ≤ fuel) :
    parseF fuel (pre ++ encode_value v ++ post) pre.length =
      .ok (some (pre.length + (encode_value v).length, intermediateOf v pre.length)) := by
  obtain ⟨f, rfl⟩ : ∃ f, fuel = f + 1 := ⟨fuel - 1, by have := one_le_depthValue v; omega⟩
  have hnn := encode_value_ne_nil v
  have hpos : 0 < (encode_value v).length := List.length_pos.mpr hnn
  have hlen3 := length_append3 pre (encode_value v) post
  have hne : ¬ (pre ++ encode_value v ++ post).isEmpty = true := by
    rw [List.isEmpty_iff]
    intro h
    rw [h] at hlen3
    simp at hlen3
    omega
  rw [parseF]
  rw [if_neg hne, if_neg (by omega)]
  cases v with
  | SimpleString s =>
      have hcr : ¬ 13 ∈ s := of_decide_eq_true hwf
      simp only [encode_value]
      rw [getD_head pre 43 (s ++ [13, 10]) post]
      dsimp only
      unfold parse_simple_string
      have hshape : pre ++ 43 :: (s ++ [13, 10]) ++ post =
          (pre ++ [43]) ++ s ++ 13 :: 10 :: post := by simp
      rw [hshape, show List.length pre + 1 = List.length (pre ++ [43]) from by simp,
        parse_word_exact (pre ++ [43]) s post hcr]
      simp only [Option.map_some, Option.map_some', Except.ok.injEq, Option.some.injEq,
        Prod.mk.injEq, RedisIntermediate.SimpleString.injEq, BufRange.mk.injEq,
        List.length_append, List.length_cons, List.length_nil, intermediateOf]
      exact ⟨by omega, trivial⟩
  | SimpleError s =>
      have hcr : ¬ 13 ∈ s := of_decide_eq_true hwf
      simp only [encode_value]
      rw [getD_head pre 45 (s ++ [13, 10]) post]
      dsimp only
      unfold parse_simple_error
      have hshape : pre ++ 45 :: (s ++ [13, 10]) ++ post =
          (pre ++ [45]) ++ s ++ 13 :: 10 :: post := by simp
      rw [hshape, show List.length pre + 1 = List.length (pre ++ [45]) from by simp,
        parse_word_exact (pre ++ [45]) s post hcr]
      simp only [Option.map_some, Option.map_some', Except.ok.injEq, Option.some.injEq,
        Prod.mk.injEq, RedisIntermediate.SimpleError.injEq, BufRange.mk.injEq,
        List.length_append, List.length_cons, List.length_nil, intermediateOf]
      exact ⟨by omega, trivial⟩
  | Integer i =>
      obtain ⟨h1, h2⟩ : -(2 ^ 63) ≤ i ∧ i < 2 ^ 63 := of_decide_eq_true hwf
      simp only [encode_value]
      rw [getD_head pre 58 (intToBytes i ++ [13, 10]) post]
      dsimp only
      unfold parse_integer
      have hshape : pre ++ 58 :: (intToBytes i ++ [13, 10]) ++ post =
          (pre ++ [58]) ++ intToBytes i ++ 13 :: 10 :: post := by simp
      rw [hshape, show List.length pre + 1 = List.length (pre ++ [58]) from by simp,
        int_exact (pre ++ [58]) i post h1 h2]
      dsimp only
      simp only [Except.ok.injEq, Option.some.injEq, Prod.mk.injEq,
        List.length_append, List.length_cons, List.length_nil, intermediateOf]
      exact ⟨by omega, trivial⟩
  | NullBulkString =>
      simp only [encode_value]
      rw [getD_head pre 36 [45, 49, 13, 10] post]
      dsimp only
      unfold parse_bulk_string
      have hib : intToBytes (-1) = [45, 49] := rfl
      have hshape : pre ++ 36 :: [45, 49, 13, 10] ++ post =
          (pre ++ [36]) ++ intToBytes (-1) ++ 13 :: 10 :: post := by
        rw [hib]; simp
      rw [hshape, show List.length pre + 1 = List.length (pre ++ [36]) from by simp,
        int_exact (pre ++ [36]) (-1) post (by norm_num) (by norm_num)]
      dsimp only
      rw [if_pos rfl]
      simp [hib, intermediateOf]
  | NullArray =>
      simp only [encode_value]
      rw [getD_head pre 42 [45, 49, 13, 10] post]
      dsimp only
      unfold parse_array
      have hib : intToBytes (-1) = [45, 49] := rfl
      have hshape : pre ++ 42 :: [45, 49, 13, 10] ++ post =
          (pre ++ [42]) ++ intToBytes (-1) ++ 13 :: 10 :: post := by
        rw [hib]; simp
      rw [hshape, show List.length pre + 1 = List.length (pre ++ [42]) from by simp,
        int_exact (pre ++ [42]) (-1) post (by norm_num) (by norm_num)]
      dsimp only
      rw [if_pos rfl]
      simp [hib, intermediateOf]
  | BulkString s =>
      have hs : s.length ≤ 4294967295 := of_decide_eq_true hwf
      simp only [encode_value]
      rw [getD_head pre 36 (natDigits s.length ++ [13, 10] ++ s ++ [13, 10]) post]
      dsimp only
      unfold parse_bulk_string
      have hitb : intToBytes (s.length : Int) = natDigits s.length := by
        unfold intToBytes
        rw [if_neg (by omega)]
        simp
      have hshape : pre ++ 36 :: (natDigits s.length ++ [13, 10] ++ s ++ [13, 10]) ++ post =
          (pre ++ [36]) ++ intToBytes (s.length : Int) ++ 13 :: 10 :: (s ++ 13 :: 10 :: post) := by
        rw [hitb]
        simp
      rw [hshape, show List.length pre + 1 = List.length (pre ++ [36]) from by simp,
        int_exact (pre ++ [36]) (s.length : Int) (s ++ 13 :: 10 :: post) (by omega) (by omega)]
      dsimp only
      rw [if_neg (by omega), if_pos (by omega), if_neg (by omega)]
      rw [if_neg (by
        simp only [length_append3, List.length_append, List.length_cons, List.length_nil,
          Int.toNat_natCast, hitb]
        omega)]
      simp only [Int.toNat_natCast, hitb, Except.ok.injEq, Option.some.injEq, Prod.mk.injEq,
        RedisIntermediate.BulkString.injEq, BufRange.mk.injEq, List.length_append,
        List.length_cons, List.length_nil, intermediateOf]
      exact ⟨by omega, trivial⟩
  | Array vs =>
      obtain ⟨hlen, hwfl⟩ := Bool.and_eq_true_iff.mp hwf
      have hvs : vs.length ≤ 4294967295 := of_decide_eq_true hlen
      have hdl : depthList vs ≤ f := by
        have : depthValue (.Array vs) = depthList vs + 1 := rfl
        omega
      simp only [encode_value]
      rw [getD_head pre 42 (natDigits vs.length ++ [13, 10] ++ encode_list vs) post]
      dsimp only
      unfold parse_array
      have hitb : intToBytes (vs.length : Int) = natDigits vs.length := by
        unfold intToBytes
        rw [if_neg (by omega)]
        simp
      have hshape : pre ++ 42 :: (natDigits vs.length ++ [13, 10] ++ encode_list vs) ++ post =
          (pre ++ [42]) ++ intToBytes (vs.length : Int) ++
            13 :: 10 :: (encode_list vs ++ post) := by
        rw [hitb]
        simp
      rw [hshape, show List.length pre + 1 = List.length (pre ++ [42]) from by simp,
        int_exact (pre ++ [42]) (vs.length : Int) (encode_list vs ++ post) (by omega) (by omega)]
      dsimp only
      rw [if_neg (by omega), if_pos (by omega), if_neg (by omega)]
      have hshape2 : (pre ++ [42]) ++ intToBytes (vs.length : Int) ++
            13 :: 10 :: (encode_list vs ++ post) =
          ((pre ++ [42]) ++ intToBytes (vs.length : Int) ++ [13, 10]) ++
            encode_list vs ++ post := by
        simp
      have hp0 : List.length (pre ++ [42]) + (intToBytes (vs.length : Int)).length + 2 =
          List.length ((pre ++ [42]) ++ intToBytes (vs.length : Int) ++ [13, 10]) := by
        simp [List.length_append]
        omega
      rw [Int.toNat_natCast, hshape2, hp0,
        parse_encode_list vs hwfl ((pre ++ [42]) ++ intToBytes (vs.length : Int) ++ [13, 10])
          post f hdl []]
      simp only [List.nil_append, Except.ok.injEq, Option.some.injEq, Prod.mk.injEq,
        List.length_append, List.length_cons, List.length_nil, intermediateOf, hitb]
      exact ⟨by omega, trivial⟩

theorem parse_encode_list (vs : List RedisValue) (hwf : wfList vs = true) (pre post : ByteStr)
    (fuel : Nat) (hfuel : depthList vs ≤ fuel) (acc : List RedisIntermediate) :
    parseChildren (parseF fuel) (pre ++ encode_list vs ++ post) vs.length pre.length acc =
      .ok (some (pre.length + (encode_list vs).length,
        .Array (acc ++ intermediatesOf vs pre.length))) := by
  cases vs with
  | nil => simp [parseChildren, encode_list, intermediatesOf]
  | cons v vs =>
      obtain ⟨hwf1, hwf2⟩ := Bool.and_eq_true_iff.mp hwf
      have hd1 : depthValue v ≤ fuel := by
        have hdl : depthList (v :: vs) = max (depthValue v) (depthList vs) := rfl
        have := hfuel
        rw [hdl] at this
        omega
      have hd2 : depthList vs ≤ fuel := by
        have hdl : depthList (v :: vs) = max (depthValue v) (depthList vs) := rfl
        have := hfuel
        rw [hdl] at this
        omega
      show parseChildren (parseF fuel) (pre ++ encode_list (v :: vs) ++ post)
          (vs.length + 1) pre.length acc = _
      rw [parseChildren]
      have hshape : pre ++ encode_list (v :: vs) ++ post =
          pre ++ encode_value v ++ (encode_list vs ++ post) := by
        simp [encode_list]
      rw [hshape, parse_encode_value v hwf1 pre (encode_list vs ++ post) fuel hd1]
      dsimp only
      have hshape2 : pre ++ encode_value v ++ (encode_list vs ++ post) =
          (pre ++ encode_value v) ++ encode_list vs ++ post := by
        simp
      rw [hshape2, show List.length pre + (encode_value v).length =
          List.length (pre ++ encode_value v) from by simp,
        parse_encode_list vs hwf2 (pre ++ encode_value v) post fuel hd2
          (acc ++ [intermediateOf v pre.length])]
      simp only [Except.ok.injEq, Option.some.injEq, Prod.mk.injEq, List.length_append,
        intermediatesOf, encode_list, List.append_assoc, List.singleton_append]
      exact ⟨by omega, trivial⟩

end

mutual

/-- Helper: nesting depth is bounded by the encoded length. -/
theorem depthValue_le_encode (v : RedisValue) : depthValue v ≤ (encode_value v).length := by
  cases v with
  | Array vs =>
      have h := depthList_le_encode vs
      simp only [depthValue, encode_value, List.length_cons, List.length_append]
      omega
  | SimpleString s => simp [depthValue, encode_value]
  | SimpleError s => simp [depthValue, encode_value]
  | Integer i => simp [depthValue, encode_value]
  | NullBulkString => simp [depthValue, encode_value]
  | BulkString s => simp [depthValue, encode_value]
  | NullArray => simp [depthValue, encode_value]

/-- Helper: list nesting depth is bounded by the encoded length plus one. -/
theorem depthList_le_encode (vs : List RedisValue) :
    depthList vs ≤ (encode_list vs).length + 1 := by
  cases vs with
  | nil => simp [depthList, encode_list]
  | cons v vs =>
      have h1 := depthValue_le_encode v
      have h2 := depthList_le_encode vs
      simp only [depthList, encode_list, List.length_append]
      omega

end

mutual

/-- Helper: resolving the expected intermediate against the buffer holding
the encoding reconstructs the original value. -/
theorem generate_intermediateOf (v : RedisValue) (pre post : ByteStr) :
    generate_value (intermediateOf v pre.length) (pre ++ encode_value v ++ post) = v := by
  cases v with
  | SimpleString s =>
      simp only [intermediateOf, encode_value, generate_value]
      have hshape : pre ++ 43 :: (s ++ [13, 10]) ++ post =
          (pre ++ [43]) ++ s ++ ([13, 10] ++ post) := by simp
      rw [hshape, show List.length pre + 1 = List.length (pre ++ [43]) from by simp,
        slice_exact]
  | SimpleError s =>
      simp only [intermediateOf, encode_value, generate_value]
      have hshape : pre ++ 45 :: (s ++ [13, 10]) ++ post =
          (pre ++ [45]) ++ s ++ ([13, 10] ++ post) := by simp
      rw [hshape, show List.length pre + 1 = List.length (pre ++ [45]) from by simp,
        slice_exact]
  | Integer i => rfl
  | NullBulkString => rfl
  | NullArray => rfl
  | BulkString s =>
      simp only [intermediateOf, encode_value, generate_value]
      have hshape : pre ++ 36 :: (natDigits s.length ++ [13, 10] ++ s ++ [13, 10]) ++ post =
          (pre ++ [36] ++ natDigits s.length ++ [13, 10]) ++ s ++ ([13, 10] ++ post) := by
        simp
      rw [hshape, show List.length pre + 1 + (natDigits s.length).length + 2 =
          List.length (pre ++ [36] ++ natDigits s.length ++ [13, 10]) from by
            simp [List.length_append]
            omega,
        slice_exact]
  | Array vs =>
      simp only [intermediateOf, encode_value, generate_value]
      have hshape : pre ++ 42 :: (natDigits vs.length ++ [13, 10] ++ encode_list vs) ++ post =
          (pre ++ [42] ++ natDigits vs.length ++ [13, 10]) ++ encode_list vs ++ post := by
        simp
      rw [hshape, show List.length pre + 1 + (natDigits vs.length).length + 2 =
          List.length (pre ++ [42] ++ natDigits vs.length ++ [13, 10]) from by
            simp [List.length_append]
            omega,
        generate_intermediatesOf]

/-- Helper: the list version of `generate_intermediateOf`. -/
theorem generate_intermediatesOf (vs : List RedisValue) (pre post : ByteStr) :
    generate_values (intermediatesOf vs pre.length) (pre ++ encode_list vs ++ post) = vs := by
  cases vs with
  | nil => rfl
  | cons v vs =>
      simp only [intermediatesOf, encode_list, generate_values]
      have hshape : pre ++ (encode_value v ++ encode_list vs) ++ post =
          pre ++ encode_value v ++ (encode_list vs ++ post) := by simp
      simp only [List.cons.injEq]
      constructor
      · rw [hshape]
        exact generate_intermediateOf v pre (encode_list vs ++ post)
      · have hshape2 : pre ++ (encode_value v ++ encode_list vs) ++ post =
            (pre ++ encode_value v) ++ encode_list vs ++ post := by simp
        rw [hshape2, show List.length pre + (encode_value v).length =
            List.length (pre ++ encode_value v) from by simp,
          generate_intermediatesOf]

end

/-- C2 counterexample: the SimpleString whose payload is the single CR byte
encodes to `+\r\r\n`, and decoding that encoding yields "need more input"
instead of the value with its full length. -/
theorem C2_counterexample :
    RespFrame.decode (encode_value (.SimpleString [13])) = .ok none ∧
    ¬ RespFrame.decode (encode_value (.SimpleString [13])) =
        .ok (some (.SimpleString [13], (encode_value (.SimpleString [13])).length)) := by
  refine ⟨rfl, ?_⟩
  intro h
  rw [show RespFrame.decode (encode_value (.SimpleString [13])) = .ok none from rfl] at h
  exact Option.noConfusion (Except.ok.inj h)

/-- C2 amended: decoding the encoding of `v` returns exactly `v` with the
full encoded length consumed, for every `v` whose simple-string and
simple-error payloads contain no CR byte, whose integers fit in i64, and
whose bulk payloads and arrays are at most `u32::MAX` long. -/
theorem C2_amended (v : RedisValue) (hwf : wfValue v = true) :
    RespFrame.decode (encode_value v) = .ok (some (v, (encode_value v).length)) := by
  unfold RespFrame.decode
  have hnn := encode_value_ne_nil v
  rw [if_neg (by simpa [List.isEmpty_iff] using hnn)]
  have hp : parse (encode_value v) 0 =
      .ok (some ((encode_value v).length, intermediateOf v 0)) := by
    unfold parse
    have h := parse_encode_value v hwf [] [] ((encode_value v).length + 1)
      (le_trans (depthValue_le_encode v) (by omega))
    simpa using h
  rw [hp]
  dsimp only
  rw [List.take_length]
  have hg := generate_intermediateOf v [] []
  simp only [List.nil_append, List.append_nil, List.length_nil] at hg
  rw [hg]

/-- C2 amended witness: a concrete array of a bulk string and a negative
integer round-trips through encode and decode. -/
theorem C2_amended_witness :
    RespFrame.decode (encode_value (.Array [.BulkString [104, 105], .Integer (-5)])) =
      .ok (some (.Array [.BulkString [104, 105], .Integer (-5)],
        (encode_value (.Array [.BulkString [104, 105], .Integer (-5)])).length)) :=
  C2_amended (.Array [.BulkString [104, 105], .Integer (-5)]) (by decide)

end Redis
